import Mathlib

/-!
Shallow embedding of the media analysis and encoding engine of the Jimeng
lip-sync preprocessor.  Sample values and timestamps are embedded as exact
rationals (the host language computes with IEEE doubles on values that the
engine only compares, adds, multiplies and floors), sample rates as natural
numbers of Hertz, and byte buffers as lists of naturals below 256.
-/

/-- JavaScript `|0` truncation toward zero of a (bounded) numeric value. -/
def jsTrunc (q : ℚ) : ℤ := if q < 0 then ⌈q⌉ else ⌊q⌋

/-- An in-memory PCM buffer: one sample list per channel, a sample rate in Hz
and a frame count, mirroring the host `AudioBuffer`. -/
structure AudioBuffer where
  channels : List (List ℚ)
  sampleRate : ℕ
  frames : ℕ

/-- Well-formedness of the host `AudioBuffer`: every channel holds exactly
`frames` samples. -/
def AudioBuffer.WF (b : AudioBuffer) : Prop := ∀ ch ∈ b.channels, ch.length = b.frames

/-- `getChannelData(c)`. -/
def channelData (b : AudioBuffer) (c : ℕ) : List ℚ := b.channels.getD c []

/-- Sample `i` of channel `c` (out-of-range reads see silence). -/
def sampleAt (b : AudioBuffer) (c i : ℕ) : ℚ := (channelData b c).getD i 0

/-- `DataView.setUint16(pos, n, true)`: the two little-endian bytes of `n`
(wrapping modulo 2^16 as the host does). -/
def u16LE (n : ℕ) : List ℕ := [n % 256, n / 256 % 256]

/-- `DataView.setUint32(pos, n, true)`: the four little-endian bytes of `n`
(wrapping modulo 2^32 as the host does). -/
def u32LE (n : ℕ) : List ℕ := [n % 256, n / 256 % 256, n / 65536 % 256, n / 16777216 % 256]

/-- `DataView.setInt16(pos, i, true)`: two little-endian bytes of the
two-complement representation of `i`. -/
def i16LE (i : ℤ) : List ℕ := u16LE (i % 65536).toNat

/-- Byte of a byte buffer at an offset. -/
def byteAt (l : List ℕ) (i : ℕ) : ℕ := l.getD i 0

/-- Little-endian 16-bit read from a byte buffer. -/
def readU16 (l : List ℕ) (off : ℕ) : ℕ := byteAt l off + 256 * byteAt l (off + 1)

/-- Little-endian 32-bit read from a byte buffer. -/
def readU32 (l : List ℕ) (off : ℕ) : ℕ :=
  byteAt l off + 256 * byteAt l (off + 1) + 65536 * byteAt l (off + 2) +
    16777216 * byteAt l (off + 3)

/-- Little-endian signed 16-bit read from a byte buffer. -/
def readI16 (l : List ℕ) (off : ℕ) : ℤ :=
  if 32768 ≤ readU16 l off then (readU16 l off : ℤ) - 65536 else (readU16 l off : ℤ)

/-- The serializer's float-to-int16 conversion,
`sample = Math.max(-1, Math.min(1, v)); sample = (0.5 + sample < 0 ? sample * 32768 : sample * 32767)|0`.
Note that the branch tests `0.5 + sample < 0`, that is `sample < -0.5`. -/
def wavSampleInt (s : ℚ) : ℤ :=
  if 1/2 + max (-1) (min 1 s) < 0 then jsTrunc (max (-1) (min 1 s) * 32768)
  else jsTrunc (max (-1) (min 1 s) * 32767)

/-- The sample conversion exactly as the specification words it: clamp to
`[-1, 1]`, scale by 32768 for negative values and by 32767 for non-negative
values, truncate toward zero. -/
def specSampleInt (s : ℚ) : ℤ :=
  if max (-1) (min 1 s) < 0 then jsTrunc (max (-1) (min 1 s) * 32768)
  else jsTrunc (max (-1) (min 1 s) * 32767)

/-- The interleaved data section: the `while (pos < length)` loop writes, frame
by frame, one converted sample per channel. -/
def wavBody (b : AudioBuffer) : List ℕ :=
  (List.range b.frames).flatMap fun f =>
    (List.range b.channels.length).flatMap fun c => i16LE (wavSampleInt (sampleAt b c f))

/-- `bufferToWav`: 44-byte RIFF/WAVE/fmt/data header written field by field
through `setUint32`/`setUint16`, followed by the interleaved 16-bit samples. -/
def bufferToWav (b : AudioBuffer) : List ℕ :=
  u32LE 0x46464952 ++ (u32LE (b.frames * b.channels.length * 2 + 44 - 8) ++
  (u32LE 0x45564157 ++ (u32LE 0x20746d66 ++ (u32LE 16 ++ (u16LE 1 ++
  (u16LE b.channels.length ++ (u32LE b.sampleRate ++
  (u32LE (b.sampleRate * 2 * b.channels.length) ++ (u16LE (b.channels.length * 2) ++
  (u16LE 16 ++ (u32LE 0x61746164 ++ (u32LE (b.frames * b.channels.length * 2 + 44 - 44) ++
  wavBody b))))))))))))

/-- Channel count a standard WAV reader recovers (bytes 22-23). -/
def wavChannelCount (w : List ℕ) : ℕ := readU16 w 22

/-- Frame count a standard WAV reader recovers from the byte length. -/
def wavFrameTotal (w : List ℕ) : ℕ := (w.length - 44) / (2 * wavChannelCount w)

/-- Sample value a standard 16-bit PCM WAV reader recovers for channel `c` of
frame `f`: the signed 16-bit word mapped onto full scale 32767. -/
def wavSampleQ (w : List ℕ) (c f : ℕ) : ℚ :=
  (readI16 w (44 + 2 * (f * wavChannelCount w + c)) : ℚ) / 32767

/-- Failure kind of a slice whose bounds are nonsensical (the specification's
`InvalidRange`). -/
inductive SliceErr where
  | invalidRange
deriving DecidableEq

/-- The intermediate buffer `sliceAudio` fills: `frameCount` frames per
channel, each copied from the source at `Math.floor(start * sampleRate) + i`
whenever that index is inside the source channel (`offset + i <
channelData.length`), silence otherwise.  (A negative source index cannot
arise from the engine's `0 <= start` calls; the model reads it as silence.) -/
def sliceBuffer (b : AudioBuffer) (start : ℚ) (n : ℕ) : AudioBuffer :=
  { channels := b.channels.map fun ch =>
      (List.range n).map fun (i : ℕ) =>
        if ⌊start * b.sampleRate⌋ + (i : ℤ) < (ch.length : ℤ) ∧ 0 ≤ ⌊start * b.sampleRate⌋ + (i : ℤ)
        then ch.getD (⌊start * b.sampleRate⌋ + (i : ℤ)).toNat 0 else 0
    sampleRate := b.sampleRate
    frames := n }

/-- `sliceAudio(buffer, start, end)`: computes
`frameCount = Math.floor((end - start) * sampleRate)` and serializes the
copied sub-buffer as WAV bytes.  The host `AudioContext.createBuffer` call
rejects a non-positive frame count (`NotSupportedError`); that failure is the
specification's `InvalidRange` kind. -/
def sliceAudio (b : AudioBuffer) (start stop : ℚ) : Except SliceErr (List ℕ) :=
  if ⌊(stop - start) * b.sampleRate⌋ ≤ 0 then .error .invalidRange
  else .ok (bufferToWav (sliceBuffer b start (⌊(stop - start) * b.sampleRate⌋).toNat))

/-- The boundary list `[0, ...splits, duration]` built by `generateSegments`. -/
def boundaryPoints (splits : List ℚ) (dur : ℚ) : List ℚ := 0 :: (splits ++ [dur])

/-- Consecutive pairs `(points[i], points[i+1])` of a boundary list. -/
def consecPairs : List ℚ → List (ℚ × ℚ)
  | a :: b :: t => (a, b) :: consecPairs (b :: t)
  | _ => []

/-- The `(start, end)` ranges `generateSegments` emits: consecutive boundary
pairs, with `if (end - start < 0.1) continue` dropping slivers. -/
def segmentPairs (splits : List ℚ) (dur : ℚ) : List (ℚ × ℚ) :=
  (consecPairs (boundaryPoints splits dur)).filter fun p => !decide (p.2 - p.1 < 1/10)

/-- Energy of a probe chunk: sum of absolute channel-0 amplitudes over
`n` samples from `s`. -/
def chunkEnergy (data : List ℚ) (s n : ℕ) : ℚ :=
  ((List.range n).map fun i => |data.getD (s + i) 0|).sum

/-- Number of iterations of `for (let s = startS; s < endS; s += step)`. -/
def chunkCount (startS endS step : ℕ) : ℕ := (endS - startS + step - 1) / step

/-- The chunk start positions that `for` loop visits. -/
def chunkStarts (startS endS step : ℕ) : List ℕ :=
  (List.range (chunkCount startS endS step)).map fun k => startS + k * step

/-- The chunk start positions actually scored: the scan breaks at the first
chunk that would run past the buffer end (`if (s + chunkSize > buffer.length) break`). -/
def completeChunks (data : List ℚ) (rate : ℕ) (cursor maxDur : ℚ) : List ℕ :=
  (chunkStarts (⌊max (cursor + 1) (cursor + maxDur - min 5 (maxDur / 2)) * rate⌋).toNat
      (⌊(cursor + maxDur) * rate⌋).toNat (rate / 10)).takeWhile
    fun s => s + rate / 10 ≤ data.length

/-- The `(minEnergy, bestTime)` pair recorded when chunk `s` wins the scan. -/
def stepState (data : List ℚ) (rate : ℕ) (s : ℕ) : Option ℚ × ℚ :=
  (some (chunkEnergy data s (rate / 10)), (s : ℚ) / rate)

/-- One chunk of the scan body: `minEnergy` starts at `Infinity` (modelled as
`none`), and a chunk wins only on a strict `energy < minEnergy`. -/
def detectScan (data : List ℚ) (rate : ℕ) (st : Option ℚ × ℚ) (s : ℕ) : Option ℚ × ℚ :=
  match st.1 with
  | none => stepState data rate s
  | some m => if chunkEnergy data s (rate / 10) < m then stepState data rate s else st

/-- One iteration of the auto-split scan: fold the complete chunks left to
right, keeping `(minEnergy, bestTime)` (`bestTime` starts at
`currentPos + maxDur`), and return the final `bestTime`. -/
def detectStep (data : List ℚ) (rate : ℕ) (cursor maxDur : ℚ) : ℚ :=
  ((completeChunks data rate cursor maxDur).foldl (detectScan data rate)
    (none, cursor + maxDur)).2

/-- The element minimising `f`, earliest element winning ties, as the claim
describes the probe-chunk selection. -/
def firstMin (f : ℕ → ℚ) : List ℕ → Option ℕ
  | [] => none
  | a :: t =>
    match firstMin f t with
    | none => some a
    | some b => if f a ≤ f b then some a else some b

/-- The `while (currentPos + maxDur < totalDuration)` loop of
`autoDetectSplits`, with explicit fuel: `none` means the fuel ran out before
the loop exited. -/
def autoLoop (data : List ℚ) (rate : ℕ) (totalDur maxDur : ℚ) : ℕ → ℚ → Option (List ℚ)
  | 0, _ => none
  | fuel + 1, cursor =>
    if cursor + maxDur < totalDur then
      (autoLoop data rate totalDur maxDur fuel (detectStep data rate cursor maxDur)).map
        fun rest => detectStep data rate cursor maxDur :: rest
    else some []

/-- Fuel sufficient for the auto-split loop (each iteration advances the
cursor by at least 9/10 of a second under the stated hypotheses). -/
def detectFuel (totalDur : ℚ) : ℕ := 2 * (⌈totalDur⌉.toNat + 1)

/-- `autoDetectSplits` run from cursor 0 with the default fuel. -/
def autoDetectSplits (data : List ℚ) (rate : ℕ) (totalDur maxDur : ℚ) : List ℚ :=
  (autoLoop data rate totalDur maxDur (detectFuel totalDur) 0).getD []

/-- One produced segment record (`{start, end}`; the blob and object URL are
presentation data). -/
structure Segment where
  start : ℚ
  stop : ℚ

/-- An audio asset record; `file`, `name` and `url` are opaque handles. -/
structure AudioAsset where
  id : ℕ
  file : ℕ
  name : ℕ
  duration : ℚ
  url : ℕ
  buffer : Option AudioBuffer
  splitPoints : List ℚ
  segments : List Segment

/-- `Array.prototype.sort((a, b) => a - b)`: sort ascending. -/
def jsSort (l : List ℚ) : List ℚ := l.mergeSort fun a b => decide (a ≤ b)

/-- `addSplitPoint`: clamp the time into `[0, duration]`, skip an exact
duplicate, otherwise append and sort. -/
def addSplitPoint (a : AudioAsset) (time : ℚ) : AudioAsset :=
  if max 0 (min a.duration time) ∈ a.splitPoints then a
  else { a with splitPoints := jsSort (a.splitPoints ++ [max 0 (min a.duration time)]) }

/-- `adjustSplitPoint`: clamp the moved point into `[0, duration]`, replace
every occurrence of the old value, re-sort. -/
def adjustSplitPoint (a : AudioAsset) (point delta : ℚ) : AudioAsset :=
  { a with splitPoints := jsSort (a.splitPoints.map fun p =>
      if p = point then max 0 (min a.duration (point + delta)) else p) }

/-- `removeSplitPoint`: filter the value out. -/
def removeSplitPoint (a : AudioAsset) (point : ℚ) : AudioAsset :=
  { a with splitPoints := a.splitPoints.filter fun p => !decide (p = point) }

/-- `autoDetectSplits` as the component updates the asset: a fresh split list
and an emptied segment list; a bufferless asset is returned unchanged. -/
def autoDetectUpdate (a : AudioAsset) (maxDur : ℚ) : AudioAsset :=
  match a.buffer with
  | none => a
  | some b =>
    { a with splitPoints := autoDetectSplits (channelData b 0) b.sampleRate a.duration maxDur
             segments := [] }

/-- The split-list invariant of the data model (boundary values allowed, see
the amended claim): strictly ascending, hence unique, values in `[0, duration]`. -/
def SplitInv (dur : ℚ) (pts : List ℚ) : Prop :=
  pts.Sorted (· < ·) ∧ ∀ t ∈ pts, 0 ≤ t ∧ t ≤ dur

/-- One output column of the waveform renderer: scan `step` samples from
`base`, starting from the sentinels `min = 1.0`, `max = -1.0`; an index past
the buffer end compares as `undefined` and updates nothing. -/
def peakCol (data : List ℚ) (base n : ℕ) : ℚ × ℚ :=
  (List.range n).foldl
    (fun mm j =>
      match data[base + j]? with
      | none => mm
      | some d => (if d < mm.1 then d else mm.1, if mm.2 < d then d else mm.2))
    (1, -1)

/-- The waveform summarizer: `step = Math.ceil(length / width)` and one
min/max pair per output column. -/
def waveformPeaks (data : List ℚ) (width : ℕ) : List (ℚ × ℚ) :=
  (List.range width).map fun i =>
    peakCol data (i * ((data.length + width - 1) / width)) ((data.length + width - 1) / width)

/-- Average brightness of an RGBA frame: mean over pixels of the mean of the
R, G, B channel values. -/
def avgBrightness (frame : List (ℕ × ℕ × ℕ × ℕ)) : ℚ :=
  ((frame.map fun p => ((p.1 : ℚ) + p.2.1 + p.2.2.1) / 3).sum) / frame.length

/-- The `findGoodFrame` back-off search with explicit fuel: retry at
`t - 0.1` while the frame is too dark (`avgBrightness < 10`) and `t > 0.5`,
accept otherwise; `none` means the fuel ran out. -/
def findGoodFrameF (video : ℚ → List (ℕ × ℕ × ℕ × ℕ)) : ℕ → ℚ → Option ℚ
  | 0, _ => none
  | fuel + 1, t =>
    if avgBrightness (video t) < 10 ∧ 1/2 < t then findGoodFrameF video fuel (t - 1/10)
    else some t

/-- Fuel sufficient for the brightness search started at `t`. -/
def goodFuel (t : ℚ) : ℕ := (⌈(t - 1/2) * 10⌉).toNat + 1

/-- The accept condition of the brightness search, as the claim states it. -/
def frameOk (video : ℚ → List (ℕ × ℕ × ℕ × ℕ)) (t : ℚ) : Prop :=
  10 ≤ avgBrightness (video t) ∨ t ≤ 1/2

/-- A cursor that sits on the sample grid: an exact multiple of `1/rate`
seconds.  The auto-split cursor starts at 0 and only ever moves to
`s / sampleRate` or advances by a whole-number budget, so it stays on the
grid. -/
def GridPos (rate : ℕ) (c : ℚ) : Prop := ∃ n : ℕ, c = (n : ℚ) / rate

/-- Concrete one-sample buffer exhibiting the sample-conversion threshold. -/
def cexBufC1 : AudioBuffer := { channels := [[-(1/4)]], sampleRate := 8000, frames := 1 }

/-- Concrete buffer for the auto-split counterexample: 30 silent samples at
10 Hz, i.e. exactly 3.0 seconds of audio matching the duration field 3. -/
def cexDataC3 : List ℚ := List.replicate 30 0

/-- Concrete two-sample buffer used as a witness input. -/
def witBuf : AudioBuffer := { channels := [[0, 1]], sampleRate := 10, frames := 2 }

/-- Concrete asset whose split list `[1, 2]` collapses under `adjustSplitPoint`. -/
def cexAssetC8 : AudioAsset :=
  { id := 0, file := 0, name := 0, duration := 10, url := 0, buffer := none
    splitPoints := [1, 2], segments := [] }

/-- Concrete empty buffer used inside the witness asset. -/
def witInner : AudioBuffer := { channels := [], sampleRate := 10, frames := 0 }

/-- Concrete asset used as a witness input for the split-list operations. -/
def witAsset : AudioAsset :=
  { id := 0, file := 0, name := 0, duration := 2, url := 0
    buffer := some witInner
    splitPoints := [], segments := [] }

/-- The WAV container layout the (amended) claim asserts, read back field by
field from the serialized bytes. -/
def WavLayoutHolds (b : AudioBuffer) : Prop :=
  (bufferToWav b).length = 44 + b.frames * b.channels.length * 2 ∧
  readU32 (bufferToWav b) 0 = 0x46464952 ∧
  readU32 (bufferToWav b) 4 = b.frames * b.channels.length * 2 + 36 ∧
  readU32 (bufferToWav b) 8 = 0x45564157 ∧
  readU32 (bufferToWav b) 12 = 0x20746d66 ∧
  readU32 (bufferToWav b) 16 = 16 ∧
  readU16 (bufferToWav b) 20 = 1 ∧
  readU16 (bufferToWav b) 22 = b.channels.length ∧
  readU32 (bufferToWav b) 24 = b.sampleRate ∧
  readU32 (bufferToWav b) 28 = b.sampleRate * b.channels.length * 2 ∧
  readU16 (bufferToWav b) 32 = b.channels.length * 2 ∧
  readU16 (bufferToWav b) 34 = 16 ∧
  readU32 (bufferToWav b) 36 = 0x61746164 ∧
  readU32 (bufferToWav b) 40 = b.frames * b.channels.length * 2 ∧
  ∀ f < b.frames, ∀ c < b.channels.length,
    readI16 (bufferToWav b) (44 + 2 * (f * b.channels.length + c)) =
      wavSampleInt (sampleAt b c f)

/-- What the slice claim asserts of `sliceAudio b start stop`: the slice
succeeds, holds `Math.floor((stop - start) * sampleRate)` frames per channel
copied (with zero-fill) from offset `Math.floor(start * sampleRate)`, and a
standard WAV reader recovers every sample to within 1/32767. -/
def SliceSpecHolds (b : AudioBuffer) (start stop : ℚ) : Prop :=
  sliceAudio b start stop =
    .ok (bufferToWav (sliceBuffer b start (⌊(stop - start) * b.sampleRate⌋).toNat)) ∧
  (sliceBuffer b start (⌊(stop - start) * b.sampleRate⌋).toNat).frames =
    (⌊(stop - start) * b.sampleRate⌋).toNat ∧
  (∀ c < b.channels.length, ∀ j < (⌊(stop - start) * b.sampleRate⌋).toNat,
    sampleAt (sliceBuffer b start (⌊(stop - start) * b.sampleRate⌋).toNat) c j =
      if (⌊start * b.sampleRate⌋).toNat + j < (channelData b c).length
      then sampleAt b c ((⌊start * b.sampleRate⌋).toNat + j) else 0) ∧
  wavChannelCount (bufferToWav (sliceBuffer b start (⌊(stop - start) * b.sampleRate⌋).toNat)) =
    b.channels.length ∧
  wavFrameTotal (bufferToWav (sliceBuffer b start (⌊(stop - start) * b.sampleRate⌋).toNat)) =
    (⌊(stop - start) * b.sampleRate⌋).toNat ∧
  ∀ c < b.channels.length, ∀ j < (⌊(stop - start) * b.sampleRate⌋).toNat,
    |wavSampleQ (bufferToWav (sliceBuffer b start (⌊(stop - start) * b.sampleRate⌋).toNat)) c j -
        sampleAt (sliceBuffer b start (⌊(stop - start) * b.sampleRate⌋).toNat) c j| ≤ 1 / 32767

/-- What the (amended) auto-split claim asserts of a full `autoDetectSplits`
run: the loop exits within the default fuel, a segment budget at least the
duration yields no splits, and successive splits advance the cursor by at
least one second (hence are strictly increasing). -/
def AutoSplitHolds (data : List ℚ) (rate : ℕ) (totalDur : ℚ) (m : ℕ) : Prop :=
  (autoLoop data rate totalDur (m : ℚ) (detectFuel totalDur) 0).isSome ∧
  (totalDur ≤ (m : ℚ) → autoDetectSplits data rate totalDur (m : ℚ) = []) ∧
  List.Chain (fun a b => a + 1 ≤ b) 0 (autoDetectSplits data rate totalDur (m : ℚ))

/-- What the (amended) batch-slicing claim asserts: membership of an emitted
range, positivity and ordering of the emitted ranges, coverage of
`[0, duration)` up to sub-0.1s drops, and the single full-range segment of an
empty split list. -/
def SliceAllHolds (splits : List ℚ) (dur : ℚ) : Prop :=
  (∀ p, p ∈ segmentPairs splits dur ↔
      p ∈ consecPairs (boundaryPoints splits dur) ∧ 1/10 ≤ p.2 - p.1) ∧
  (∀ p ∈ segmentPairs splits dur, p.1 < p.2) ∧
  (segmentPairs splits dur).Pairwise (fun p q => p.2 ≤ q.1) ∧
  (∀ x : ℚ, 0 ≤ x → x < dur → ∃ p ∈ consecPairs (boundaryPoints splits dur),
      p.1 ≤ x ∧ x < p.2 ∧ (p ∈ segmentPairs splits dur ∨ p.2 - p.1 < 1/10)) ∧
  (splits = [] → 1/10 ≤ dur → segmentPairs splits dur = [(0, dur)])

/-- What the (amended) split-list claim asserts of the four operations. -/
def SplitOpsHold (a : AudioAsset) (time pt delta : ℚ) (m : ℕ) : Prop :=
  SplitInv a.duration (addSplitPoint a time).splitPoints ∧
  SplitInv a.duration (removeSplitPoint a pt).splitPoints ∧
  (adjustSplitPoint a pt delta).splitPoints.Sorted (· ≤ ·) ∧
  (∀ t ∈ (adjustSplitPoint a pt delta).splitPoints, 0 ≤ t ∧ t ≤ a.duration) ∧
  SplitInv a.duration (autoDetectUpdate a (m : ℚ)).splitPoints

/-- What the frame-effect claim asserts of the auto-detect update. -/
def FrameEffectHolds (a : AudioAsset) (b : AudioBuffer) (maxDur : ℚ) : Prop :=
  (autoDetectUpdate a maxDur).splitPoints =
    autoDetectSplits (channelData b 0) b.sampleRate a.duration maxDur ∧
  (autoDetectUpdate a maxDur).segments = [] ∧
  (autoDetectUpdate a maxDur).id = a.id ∧
  (autoDetectUpdate a maxDur).file = a.file ∧
  (autoDetectUpdate a maxDur).name = a.name ∧
  (autoDetectUpdate a maxDur).duration = a.duration ∧
  (autoDetectUpdate a maxDur).url = a.url ∧
  (autoDetectUpdate a maxDur).buffer = a.buffer

/-- What the (amended) waveform claim asserts: one pair per column; a column
whose sample window is empty keeps the `(1, -1)` sentinels, any other column
reports the true minimum and maximum over its window. -/
def PeakSpecHolds (data : List ℚ) (width : ℕ) : Prop :=
  (waveformPeaks data width).length = width ∧
  ∀ i < width,
    ((data.drop (i * ((data.length + width - 1) / width))).take
        ((data.length + width - 1) / width) = [] →
      (waveformPeaks data width).getD i (0, 0) = (1, -1)) ∧
    ((data.drop (i * ((data.length + width - 1) / width))).take
        ((data.length + width - 1) / width) ≠ [] →
      ((waveformPeaks data width).getD i (0, 0)).1 ∈
          (data.drop (i * ((data.length + width - 1) / width))).take
            ((data.length + width - 1) / width) ∧
        ((waveformPeaks data width).getD i (0, 0)).2 ∈
          (data.drop (i * ((data.length + width - 1) / width))).take
            ((data.length + width - 1) / width) ∧
        ∀ x ∈ (data.drop (i * ((data.length + width - 1) / width))).take
            ((data.length + width - 1) / width),
          ((waveformPeaks data width).getD i (0, 0)).1 ≤ x ∧
            x ≤ ((waveformPeaks data width).getD i (0, 0)).2)

/-- What the brightness-probe claim asserts: started at `duration - 0.05`, the
search terminates within the computed fuel on the retry grid, the returned
frame satisfies the accept condition, and every earlier probed frame failed it. -/
def ProbeSpecHolds (video : ℚ → List (ℕ × ℕ × ℕ × ℕ)) (dur : ℚ) : Prop :=
  ∃ k : ℕ, findGoodFrameF video (goodFuel (dur - 1/20)) (dur - 1/20) =
      some (dur - 1/20 - k * (1/10)) ∧
    frameOk video (dur - 1/20 - k * (1/10)) ∧
    ∀ j < k, ¬ frameOk video (dur - 1/20 - j * (1/10))

/-! ### Byte-buffer lemmas -/

theorem length_u16LE (n : ℕ) : (u16LE n).length = 2 := rfl

theorem length_u32LE (n : ℕ) : (u32LE n).length = 4 := rfl

theorem length_i16LE (i : ℤ) : (i16LE i).length = 2 := rfl

theorem byteAt_append_right (l r : List ℕ) (i : ℕ) :
    byteAt (l ++ r) (l.length + i) = byteAt r i := by
  unfold byteAt
  rw [List.getD_append_right l r 0 (l.length + i) (Nat.le_add_right _ _),
    Nat.add_sub_cancel_left]

theorem byteAt_append_left (l r : List ℕ) (i : ℕ) (h : i < l.length) :
    byteAt (l ++ r) i = byteAt l i := by
  unfold byteAt
  rw [List.getD_append _ _ _ _ h]

theorem byteAt_u32LE_skip (n : ℕ) (r : List ℕ) (i : ℕ) :
    byteAt (u32LE n ++ r) (4 + i) = byteAt r i := by
  have h := byteAt_append_right (u32LE n) r i
  rwa [length_u32LE] at h

theorem byteAt_u16LE_skip (n : ℕ) (r : List ℕ) (i : ℕ) :
    byteAt (u16LE n ++ r) (2 + i) = byteAt r i := by
  have h := byteAt_append_right (u16LE n) r i
  rwa [length_u16LE] at h

theorem readU32_skip4 (n : ℕ) (r : List ℕ) (i : ℕ) :
    readU32 (u32LE n ++ r) (4 + i) = readU32 r i := by
  unfold readU32
  rw [show 4 + i + 1 = 4 + (i + 1) from rfl, show 4 + i + 2 = 4 + (i + 2) from rfl,
    show 4 + i + 3 = 4 + (i + 3) from rfl, byteAt_u32LE_skip, byteAt_u32LE_skip,
    byteAt_u32LE_skip, byteAt_u32LE_skip]

theorem readU32_skip2 (n : ℕ) (r : List ℕ) (i : ℕ) :
    readU32 (u16LE n ++ r) (2 + i) = readU32 r i := by
  unfold readU32
  rw [show 2 + i + 1 = 2 + (i + 1) from rfl, show 2 + i + 2 = 2 + (i + 2) from rfl,
    show 2 + i + 3 = 2 + (i + 3) from rfl, byteAt_u16LE_skip, byteAt_u16LE_skip,
    byteAt_u16LE_skip, byteAt_u16LE_skip]

theorem readU16_skip4 (n : ℕ) (r : List ℕ) (i : ℕ) :
    readU16 (u32LE n ++ r) (4 + i) = readU16 r i := by
  unfold readU16
  rw [show 4 + i + 1 = 4 + (i + 1) from rfl, byteAt_u32LE_skip, byteAt_u32LE_skip]

theorem readU16_skip2 (n : ℕ) (r : List ℕ) (i : ℕ) :
    readU16 (u16LE n ++ r) (2 + i) = readU16 r i := by
  unfold readU16
  rw [show 2 + i + 1 = 2 + (i + 1) from rfl, byteAt_u16LE_skip, byteAt_u16LE_skip]

theorem readU32_u32LE (n : ℕ) (r : List ℕ) (h : n < 4294967296) :
    readU32 (u32LE n ++ r) 0 = n := by
  simp only [readU32, u32LE, byteAt, List.cons_append, List.getD_cons_zero,
    List.getD_cons_succ]
  omega

theorem readU16_u16LE (n : ℕ) (r : List ℕ) (h : n < 65536) :
    readU16 (u16LE n ++ r) 0 = n := by
  simp only [readU16, u16LE, byteAt, List.cons_append, List.getD_cons_zero,
    List.getD_cons_succ]
  omega

/-! ### Indexing into the interleaved sample section -/

theorem getD_flatMap_fixed {α β : Type} (g : β → List α) (L : ℕ) (d : α) :
    ∀ (l : List β) (i j : ℕ), (∀ x ∈ l, (g x).length = L) → j < L →
      ∀ x, l[i]? = some x → (l.flatMap g).getD (i * L + j) d = (g x).getD j d := by
  intro l
  induction l with
  | nil => intro i j _ _ x hx; simp at hx
  | cons a t ih =>
    intro i j hL hj x hx
    cases i with
    | zero =>
      simp only [List.getElem?_cons_zero, Option.some.injEq] at hx
      subst hx
      rw [List.flatMap_cons, Nat.zero_mul, Nat.zero_add,
        List.getD_append _ _ _ _ (by rw [hL a (by simp)]; exact hj)]
    | succ i =>
      simp only [List.getElem?_cons_succ] at hx
      rw [List.flatMap_cons, Nat.succ_mul]
      rw [show i * L + L + j = (g a).length + (i * L + j) by rw [hL a (by simp)]; omega]
      rw [List.getD_append_right _ _ _ _ (Nat.le_add_right _ _), Nat.add_sub_cancel_left]
      exact ih i j (fun x hxt => hL x (by simp [hxt])) hj x hx

theorem length_flatMap_fixed {α β : Type} (g : β → List α) (L : ℕ) (l : List β)
    (hL : ∀ x ∈ l, (g x).length = L) : (l.flatMap g).length = l.length * L := by
  induction l with
  | nil => simp
  | cons a t ih =>
    rw [List.flatMap_cons, List.length_append, hL a (by simp),
      ih (fun x hxt => hL x (by simp [hxt])), List.length_cons]
    ring

/-! ### The int16 conversion: range and byte round-trip -/

theorem clamp_mem (s : ℚ) : -1 ≤ max (-1) (min 1 s) ∧ max (-1) (min 1 s) ≤ 1 :=
  ⟨le_max_left _ _, max_le (by norm_num) (min_le_left _ _)⟩

theorem ceil_le_of_le_int (y : ℚ) (z : ℤ) (h : y ≤ z) : ⌈y⌉ ≤ z :=
  Int.ceil_le.mpr h

theorem le_ceil_of_int_le (y : ℚ) (z : ℤ) (h : (z : ℚ) ≤ y) : z ≤ ⌈y⌉ := by
  have h2 : (z : ℚ) ≤ (⌈y⌉ : ℚ) := le_trans h (Int.le_ceil y)
  exact_mod_cast h2

theorem floor_le_of_le_int (y : ℚ) (z : ℤ) (h : y ≤ z) : ⌊y⌋ ≤ z := by
  have h2 : (⌊y⌋ : ℚ) ≤ (z : ℚ) := le_trans (Int.floor_le y) h
  exact_mod_cast h2

theorem wavSampleInt_bounds (s : ℚ) : -32768 ≤ wavSampleInt s ∧ wavSampleInt s ≤ 32767 := by
  obtain ⟨hc1, hc2⟩ := clamp_mem s
  unfold wavSampleInt jsTrunc
  constructor
  · split
    · split
      · exact le_ceil_of_int_le _ _ (by push_cast; nlinarith)
      · have h1 : (0 : ℚ) ≤ max (-1) (min 1 s) * 32768 := le_of_not_lt (by assumption)
        have h2 : (0 : ℤ) ≤ ⌊max (-1) (min 1 s) * 32768⌋ := Int.floor_nonneg.mpr h1
        omega
    · split
      · have h2 : (-32767 : ℤ) ≤ ⌈max (-1) (min 1 s) * 32767⌉ :=
          le_ceil_of_int_le _ _ (by push_cast; nlinarith)
        omega
      · have h1 : (0 : ℚ) ≤ max (-1) (min 1 s) * 32767 := le_of_not_lt (by assumption)
        have h2 : (0 : ℤ) ≤ ⌊max (-1) (min 1 s) * 32767⌋ := Int.floor_nonneg.mpr h1
        omega
  · split
    · split
      · have h2 : ⌈max (-1) (min 1 s) * 32768⌉ ≤ 0 :=
          ceil_le_of_le_int _ 0 (by push_cast; linarith [le_of_lt (show max (-1) (min 1 s) * 32768 < 0 by assumption)])
        omega
      · -- the non-negative branch is unreachable here: the clamp is below -1/2
        have h3 : max (-1) (min 1 s) * 32768 < 0 := by
          have h4 : 1/2 + max (-1) (min 1 s) < 0 := by assumption
          nlinarith
        exact absurd h3 (by assumption)
    · split
      · have h2 : ⌈max (-1) (min 1 s) * 32767⌉ ≤ 0 :=
          ceil_le_of_le_int _ 0 (by push_cast; linarith [le_of_lt (show max (-1) (min 1 s) * 32767 < 0 by assumption)])
        omega
      · exact floor_le_of_le_int _ _ (by push_cast; nlinarith)

theorem readI16_i16LE (v : ℤ) (r : List ℕ) (h1 : -32768 ≤ v) (h2 : v ≤ 32767) :
    readI16 (i16LE v ++ r) 0 = v := by
  have hm : ((v % 65536).toNat) < 65536 := by omega
  have hu : readU16 (i16LE v ++ r) 0 = (v % 65536).toNat := by
    unfold i16LE
    exact readU16_u16LE _ r hm
  unfold readI16
  rw [hu]
  omega

/-! ### Reading back the serialized container -/

theorem readU16_i16LE (v : ℤ) : readU16 (i16LE v) 0 = (v % 65536).toNat := by
  simp only [readU16, i16LE, u16LE, byteAt, List.getD_cons_zero, List.getD_cons_succ]
  omega

theorem readI16_eq_of_readU16 (l : List ℕ) (off : ℕ) (v : ℤ) (h1 : -32768 ≤ v)
    (h2 : v ≤ 32767) (h : readU16 l off = (v % 65536).toNat) : readI16 l off = v := by
  unfold readI16
  rw [h]
  omega

theorem wavBody_inner_length (b : AudioBuffer) (f : ℕ) :
    ((List.range b.channels.length).flatMap fun c =>
        i16LE (wavSampleInt (sampleAt b c f))).length = b.channels.length * 2 := by
  have h := length_flatMap_fixed (fun c => i16LE (wavSampleInt (sampleAt b c f))) 2
    (List.range b.channels.length) (fun x _ => length_i16LE _)
  simpa using h

theorem wavBody_length (b : AudioBuffer) :
    (wavBody b).length = b.frames * (b.channels.length * 2) := by
  unfold wavBody
  have h := length_flatMap_fixed
    (fun f => (List.range b.channels.length).flatMap fun c =>
      i16LE (wavSampleInt (sampleAt b c f)))
    (b.channels.length * 2) (List.range b.frames)
    (fun f _ => wavBody_inner_length b f)
  simpa using h

theorem wavBody_getD (b : AudioBuffer) (f c j : ℕ) (hf : f < b.frames)
    (hc : c < b.channels.length) (hj : j < 2) :
    (wavBody b).getD (2 * (f * b.channels.length + c) + j) 0 =
      (i16LE (wavSampleInt (sampleAt b c f))).getD j 0 := by
  unfold wavBody
  rw [show 2 * (f * b.channels.length + c) + j =
      f * (b.channels.length * 2) + (c * 2 + j) by ring]
  rw [getD_flatMap_fixed _ (b.channels.length * 2) 0 _ f (c * 2 + j)
    (fun x _ => wavBody_inner_length b x) (by omega) f (by simp [hf])]
  rw [getD_flatMap_fixed _ 2 0 _ c j (fun x _ => length_i16LE _) hj c (by simp [hc])]

theorem readU16_wav_body (b : AudioBuffer) (i : ℕ) :
    readU16 (bufferToWav b) (44 + i) = readU16 (wavBody b) i := by
  unfold bufferToWav
  rw [show 44 + i = 4 + (40 + i) by omega, readU16_skip4,
    show 40 + i = 4 + (36 + i) by omega, readU16_skip4,
    show 36 + i = 4 + (32 + i) by omega, readU16_skip4,
    show 32 + i = 4 + (28 + i) by omega, readU16_skip4,
    show 28 + i = 4 + (24 + i) by omega, readU16_skip4,
    show 24 + i = 2 + (22 + i) by omega, readU16_skip2,
    show 22 + i = 2 + (20 + i) by omega, readU16_skip2,
    show 20 + i = 4 + (16 + i) by omega, readU16_skip4,
    show 16 + i = 4 + (12 + i) by omega, readU16_skip4,
    show 12 + i = 2 + (10 + i) by omega, readU16_skip2,
    show 10 + i = 2 + (8 + i) by omega, readU16_skip2,
    show 8 + i = 4 + (4 + i) by omega, readU16_skip4, readU16_skip4]

theorem readU16_wavBody_sample (b : AudioBuffer) (f c : ℕ) (hf : f < b.frames)
    (hc : c < b.channels.length) :
    readU16 (wavBody b) (2 * (f * b.channels.length + c)) =
      ((wavSampleInt (sampleAt b c f)) % 65536).toNat := by
  have h0 := wavBody_getD b f c 0 hf hc (by omega)
  have h1 := wavBody_getD b f c 1 hf hc (by omega)
  have hu := readU16_i16LE (wavSampleInt (sampleAt b c f))
  unfold readU16 byteAt at hu ⊢
  rw [show 2 * (f * b.channels.length + c) = 2 * (f * b.channels.length + c) + 0 by omega,
    h0, show 2 * (f * b.channels.length + c) + 0 + 1 =
      2 * (f * b.channels.length + c) + 1 by omega, h1]
  simpa using hu

theorem wav_data_sample (b : AudioBuffer) (f c : ℕ) (hf : f < b.frames)
    (hc : c < b.channels.length) :
    readI16 (bufferToWav b) (44 + 2 * (f * b.channels.length + c)) =
      wavSampleInt (sampleAt b c f) := by
  obtain ⟨hlo, hhi⟩ := wavSampleInt_bounds (sampleAt b c f)
  exact readI16_eq_of_readU16 _ _ _ hlo hhi
    ((readU16_wav_body b _).trans (readU16_wavBody_sample b f c hf hc))

theorem wav_length (b : AudioBuffer) :
    (bufferToWav b).length = 44 + b.frames * b.channels.length * 2 := by
  unfold bufferToWav
  simp only [List.length_append, length_u32LE, length_u16LE, wavBody_length]
  ring

theorem readU16_wav_22 (b : AudioBuffer) (h : b.channels.length < 65536) :
    readU16 (bufferToWav b) 22 = b.channels.length := by
  unfold bufferToWav
  rw [show (22 : ℕ) = 4 + 18 by omega, readU16_skip4,
    show (18 : ℕ) = 4 + 14 by omega, readU16_skip4,
    show (14 : ℕ) = 4 + 10 by omega, readU16_skip4,
    show (10 : ℕ) = 4 + 6 by omega, readU16_skip4,
    show (6 : ℕ) = 4 + 2 by omega, readU16_skip4,
    show (2 : ℕ) = 2 + 0 by omega, readU16_skip2]
  exact readU16_u16LE _ _ h

/-- Claim C1 (amended): for every AudioBuffer, the serialized bytes form a
little-endian RIFF/WAVE container with PCM format tag 1, the source's channel
count, 16-bit samples, `ChunkSize = dataBytes + 36`,
`ByteRate = sampleRate * numChannels * 2`, `BlockAlign = numChannels * 2`,
`Subchunk2Size = dataBytes`; each sample is clamped to `[-1, 1]`, scaled by
32768 when the clamped value is below -0.5 (the code tests `0.5 + sample < 0`,
not `sample < 0`) and by 32767 otherwise, truncated toward zero, and stored
as a signed 16-bit value interleaved channel-major per frame. -/
theorem wav_layout_amended (b : AudioBuffer)
    (hnc : b.channels.length * 2 < 65536) (hsr : b.sampleRate < 4294967296)
    (hbr : b.sampleRate * 2 * b.channels.length < 4294967296)
    (hdb : b.frames * b.channels.length * 2 + 36 < 4294967296) :
    WavLayoutHolds b := by
  unfold WavLayoutHolds
  refine ⟨wav_length b, ?_, ?_, ?_, ?_, ?_, ?_, readU16_wav_22 b (by omega), ?_, ?_,
    ?_, ?_, ?_, ?_, fun f hf c hc => wav_data_sample b f c hf hc⟩
  · unfold bufferToWav
    exact readU32_u32LE _ _ (by norm_num)
  · unfold bufferToWav
    rw [show (4 : ℕ) = 4 + 0 by omega, readU32_skip4, readU32_u32LE _ _ (by omega)]
    omega
  · unfold bufferToWav
    rw [show (8 : ℕ) = 4 + 4 by omega, readU32_skip4,
      show (4 : ℕ) = 4 + 0 by omega, readU32_skip4]
    exact readU32_u32LE _ _ (by norm_num)
  · unfold bufferToWav
    rw [show (12 : ℕ) = 4 + 8 by omega, readU32_skip4,
      show (8 : ℕ) = 4 + 4 by omega, readU32_skip4,
      show (4 : ℕ) = 4 + 0 by omega, readU32_skip4]
    exact readU32_u32LE _ _ (by norm_num)
  · unfold bufferToWav
    rw [show (16 : ℕ) = 4 + 12 by omega, readU32_skip4,
      show (12 : ℕ) = 4 + 8 by omega, readU32_skip4,
      show (8 : ℕ) = 4 + 4 by omega, readU32_skip4,
      show (4 : ℕ) = 4 + 0 by omega, readU32_skip4]
    exact readU32_u32LE _ _ (by norm_num)
  · unfold bufferToWav
    rw [show (20 : ℕ) = 4 + 16 by omega, readU16_skip4,
      show (16 : ℕ) = 4 + 12 by omega, readU16_skip4,
      show (12 : ℕ) = 4 + 8 by omega, readU16_skip4,
      show (8 : ℕ) = 4 + 4 by omega, readU16_skip4,
      show (4 : ℕ) = 4 + 0 by omega, readU16_skip4]
    exact readU16_u16LE _ _ (by norm_num)
  · unfold bufferToWav
    rw [show (24 : ℕ) = 4 + 20 by omega, readU32_skip4,
      show (20 : ℕ) = 4 + 16 by omega, readU32_skip4,
      show (16 : ℕ) = 4 + 12 by omega, readU32_skip4,
      show (12 : ℕ) = 4 + 8 by omega, readU32_skip4,
      show (8 : ℕ) = 4 + 4 by omega, readU32_skip4,
      show (4 : ℕ) = 2 + 2 by omega, readU32_skip2,
      show (2 : ℕ) = 2 + 0 by omega, readU32_skip2]
    exact readU32_u32LE _ _ hsr
  · unfold bufferToWav
    rw [show (28 : ℕ) = 4 + 24 by omega, readU32_skip4,
      show (24 : ℕ) = 4 + 20 by omega, readU32_skip4,
      show (20 : ℕ) = 4 + 16 by omega, readU32_skip4,
      show (16 : ℕ) = 4 + 12 by omega, readU32_skip4,
      show (12 : ℕ) = 4 + 8 by omega, readU32_skip4,
      show (8 : ℕ) = 2 + 6 by omega, readU32_skip2,
      show (6 : ℕ) = 2 + 4 by omega, readU32_skip2,
      show (4 : ℕ) = 4 + 0 by omega, readU32_skip4,
      readU32_u32LE _ _ hbr]
    ring
  · unfold bufferToWav
    rw [show (32 : ℕ) = 4 + 28 by omega, readU16_skip4,
      show (28 : ℕ) = 4 + 24 by omega, readU16_skip4,
      show (24 : ℕ) = 4 + 20 by omega, readU16_skip4,
      show (20 : ℕ) = 4 + 16 by omega, readU16_skip4,
      show (16 : ℕ) = 4 + 12 by omega, readU16_skip4,
      show (12 : ℕ) = 2 + 10 by omega, readU16_skip2,
      show (10 : ℕ) = 2 + 8 by omega, readU16_skip2,
      show (8 : ℕ) = 4 + 4 by omega, readU16_skip4,
      show (4 : ℕ) = 4 + 0 by omega, readU16_skip4]
    exact readU16_u16LE _ _ hnc
  · unfold bufferToWav
    rw [show (34 : ℕ) = 4 + 30 by omega, readU16_skip4,
      show (30 : ℕ) = 4 + 26 by omega, readU16_skip4,
      show (26 : ℕ) = 4 + 22 by omega, readU16_skip4,
      show (22 : ℕ) = 4 + 18 by omega, readU16_skip4,
      show (18 : ℕ) = 4 + 14 by omega, readU16_skip4,
      show (14 : ℕ) = 2 + 12 by omega, readU16_skip2,
      show (12 : ℕ) = 2 + 10 by omega, readU16_skip2,
      show (10 : ℕ) = 4 + 6 by omega, readU16_skip4,
      show (6 : ℕ) = 4 + 2 by omega, readU16_skip4,
      show (2 : ℕ) = 2 + 0 by omega, readU16_skip2]
    exact readU16_u16LE _ _ (by norm_num)
  · unfold bufferToWav
    rw [show (36 : ℕ) = 4 + 32 by omega, readU32_skip4,
      show (32 : ℕ) = 4 + 28 by omega, readU32_skip4,
      show (28 : ℕ) = 4 + 24 by omega, readU32_skip4,
      show (24 : ℕ) = 4 + 20 by omega, readU32_skip4,
      show (20 : ℕ) = 4 + 16 by omega, readU32_skip4,
      show (16 : ℕ) = 2 + 14 by omega, readU32_skip2,
      show (14 : ℕ) = 2 + 12 by omega, readU32_skip2,
      show (12 : ℕ) = 4 + 8 by omega, readU32_skip4,
      show (8 : ℕ) = 4 + 4 by omega, readU32_skip4,
      show (4 : ℕ) = 2 + 2 by omega, readU32_skip2,
      show (2 : ℕ) = 2 + 0 by omega, readU32_skip2]
    exact readU32_u32LE _ _ (by norm_num)
  · unfold bufferToWav
    rw [show (40 : ℕ) = 4 + 36 by omega, readU32_skip4,
      show (36 : ℕ) = 4 + 32 by omega, readU32_skip4,
      show (32 : ℕ) = 4 + 28 by omega, readU32_skip4,
      show (28 : ℕ) = 4 + 24 by omega, readU32_skip4,
      show (24 : ℕ) = 4 + 20 by omega, readU32_skip4,
      show (20 : ℕ) = 2 + 18 by omega, readU32_skip2,
      show (18 : ℕ) = 2 + 16 by omega, readU32_skip2,
      show (16 : ℕ) = 4 + 12 by omega, readU32_skip4,
      show (12 : ℕ) = 4 + 8 by omega, readU32_skip4,
      show (8 : ℕ) = 2 + 6 by omega, readU32_skip2,
      show (6 : ℕ) = 2 + 4 by omega, readU32_skip2,
      show (4 : ℕ) = 4 + 0 by omega, readU32_skip4,
      readU32_u32LE _ _ (by omega)]
    omega

/-- Claim C1 counterexample: at the sample value -1/4 the serializer stores
`trunc(-1/4 * 32767) = -8191`, not the `trunc(-1/4 * 32768) = -8192` that the
claim's "scaled by 32768 if negative" demands: the actual branch condition is
`0.5 + sample < 0`. -/
theorem wav_negative_scale_cex :
    readI16 (bufferToWav cexBufC1) 44 ≠ specSampleInt (sampleAt cexBufC1 0 0) := by
  have h1 : sampleAt cexBufC1 0 0 = -(1/4) := by
    norm_num [sampleAt, channelData, cexBufC1]
  have hclamp : max (-1 : ℚ) (min 1 (-(1/4))) = -(1/4) := by
    norm_num [min_def, max_def]
  have h2 : specSampleInt (-(1/4) : ℚ) = -8192 := by
    rw [specSampleInt, hclamp, if_pos (by norm_num), jsTrunc, if_pos (by norm_num),
      show (-(1/4) : ℚ) * 32768 = ((-8192 : ℤ) : ℚ) by norm_num, Int.ceil_intCast]
  have h3 : wavSampleInt (-(1/4) : ℚ) = -8191 := by
    rw [wavSampleInt, hclamp, if_neg (by norm_num), jsTrunc, if_pos (by norm_num),
      Int.ceil_eq_iff]
    constructor
    · push_cast
      norm_num
    · push_cast
      norm_num
  have h4 := wav_data_sample cexBufC1 0 0 (by decide) (by decide)
  rw [show 44 + 2 * (0 * cexBufC1.channels.length + 0) = 44 by omega, h1, h3] at h4
  rw [h4, h1, h2]
  decide

/-- Witness for the amended WAV layout claim at a concrete two-frame buffer. -/
theorem wav_layout_witness :
    witBuf.channels.length * 2 < 65536 ∧ witBuf.sampleRate < 4294967296 ∧
    witBuf.sampleRate * 2 * witBuf.channels.length < 4294967296 ∧
    witBuf.frames * witBuf.channels.length * 2 + 36 < 4294967296 ∧
    WavLayoutHolds witBuf :=
  ⟨by decide, by decide, by decide, by decide,
    wav_layout_amended witBuf (by decide) (by decide) (by decide) (by decide)⟩

/-! ### Quantization error of the encode/decode round trip -/

theorem wavSampleInt_near (s : ℚ) (h1 : -1 ≤ s) (h2 : s ≤ 1) :
    |(wavSampleInt s : ℚ) - 32767 * s| ≤ 1 := by
  have hc : max (-1 : ℚ) (min 1 s) = s := by
    rw [min_eq_right h2, max_eq_right h1]
  unfold wavSampleInt jsTrunc
  rw [hc]
  by_cases hneg : 1/2 + s < 0
  · rw [if_pos hneg, if_pos (by nlinarith : s * 32768 < 0)]
    have ha := Int.le_ceil (s * 32768)
    have hb := Int.ceil_lt_add_one (s * 32768)
    rw [abs_le]
    constructor <;> linarith
  · rw [if_neg hneg]
    by_cases hz : s * 32767 < 0
    · rw [if_pos hz]
      have ha := Int.le_ceil (s * 32767)
      have hb := Int.ceil_lt_add_one (s * 32767)
      rw [abs_le]
      constructor <;> linarith
    · rw [if_neg hz]
      have ha := Int.floor_le (s * 32767)
      have hb := Int.lt_floor_add_one (s * 32767)
      rw [abs_le]
      constructor <;> linarith

theorem wavSampleInt_quant (s : ℚ) (h1 : -1 ≤ s) (h2 : s ≤ 1) :
    |(wavSampleInt s : ℚ) / 32767 - s| ≤ 1 / 32767 := by
  have key := wavSampleInt_near s h1 h2
  rw [show (wavSampleInt s : ℚ) / 32767 - s = ((wavSampleInt s : ℚ) - 32767 * s) / 32767 by
    ring, abs_div, abs_of_pos (by norm_num : (0 : ℚ) < 32767)]
  rw [div_le_div_iff_of_pos_right (by norm_num : (0 : ℚ) < 32767)]
  exact key

/-! ### The slicer -/

theorem getD_mem_or_default {α : Type} (l : List α) (i : ℕ) (d : α) :
    l.getD i d ∈ l ∨ l.getD i d = d := by
  rw [List.getD_eq_getElem?_getD]
  cases h : l[i]? with
  | none => right; rfl
  | some a =>
    left
    have hm := List.getElem?_mem h
    simpa using hm

theorem sampleAt_bounds (b : AudioBuffer)
    (hsamp : ∀ ch ∈ b.channels, ∀ x ∈ ch, -1 ≤ x ∧ x ≤ 1) (c i : ℕ) :
    -1 ≤ sampleAt b c i ∧ sampleAt b c i ≤ 1 := by
  unfold sampleAt
  rcases getD_mem_or_default (channelData b c) i 0 with hmem | hdef
  · rcases getD_mem_or_default b.channels c [] with hch | hch
    · exact hsamp _ hch _ (by rwa [show channelData b c = b.channels.getD c [] from rfl] at hmem)
    · rw [show channelData b c = b.channels.getD c [] from rfl, hch] at hmem
      simp at hmem
  · rw [hdef]
    norm_num

theorem sliceBuffer_channels_length (b : AudioBuffer) (start : ℚ) (n : ℕ) :
    (sliceBuffer b start n).channels.length = b.channels.length := by
  simp [sliceBuffer]

theorem sliceBuffer_samples_bounded (b : AudioBuffer) (start : ℚ) (n : ℕ)
    (hsamp : ∀ ch ∈ b.channels, ∀ x ∈ ch, -1 ≤ x ∧ x ≤ 1) :
    ∀ ch ∈ (sliceBuffer b start n).channels, ∀ x ∈ ch, -1 ≤ x ∧ x ≤ 1 := by
  intro ch hch x hx
  simp only [sliceBuffer, List.mem_map] at hch
  obtain ⟨src, hsrc, rfl⟩ := hch
  simp only [List.mem_map, List.mem_range] at hx
  obtain ⟨i, _, rfl⟩ := hx
  split
  · rcases getD_mem_or_default src (⌊start * b.sampleRate⌋ + (i : ℤ)).toNat 0 with hm | hd
    · exact hsamp src hsrc _ hm
    · rw [hd]; norm_num
  · norm_num

theorem getD_map_of_lt {α β : Type} (f : α → β) (l : List α) (i : ℕ) (d : β)
    (hi : i < l.length) : (l.map f).getD i d = f l[i] := by
  rw [List.getD_eq_getElem?_getD, List.getElem?_map, List.getElem?_eq_getElem hi]
  rfl

theorem sampleAt_sliceBuffer (b : AudioBuffer) (start : ℚ) (n : ℕ) (c j : ℕ)
    (hc : c < b.channels.length) (hj : j < n) (hs : 0 ≤ start) :
    sampleAt (sliceBuffer b start n) c j =
      if (⌊start * b.sampleRate⌋).toNat + j < (channelData b c).length
      then sampleAt b c ((⌊start * b.sampleRate⌋).toNat + j) else 0 := by
  have hof : (0 : ℤ) ≤ ⌊start * b.sampleRate⌋ :=
    Int.floor_nonneg.mpr (mul_nonneg hs (by positivity))
  have hcd : channelData b c = b.channels[c] := by
    unfold channelData
    rw [List.getD_eq_getElem?_getD, List.getElem?_eq_getElem hc]
    rfl
  have hmain : sampleAt (sliceBuffer b start n) c j =
      if ⌊start * b.sampleRate⌋ + (j : ℤ) < (b.channels[c].length : ℤ) ∧
          0 ≤ ⌊start * b.sampleRate⌋ + (j : ℤ)
      then b.channels[c].getD (⌊start * b.sampleRate⌋ + (j : ℤ)).toNat 0 else 0 := by
    unfold sampleAt channelData
    simp only [sliceBuffer]
    rw [getD_map_of_lt _ b.channels c [] hc,
      getD_map_of_lt _ (List.range n) j 0 (by simpa using hj), List.getElem_range]
  rw [hmain, hcd]
  by_cases hlt : (⌊start * b.sampleRate⌋).toNat + j < b.channels[c].length
  · rw [if_pos (by omega), if_pos hlt,
      show (⌊start * b.sampleRate⌋ + (j : ℤ)).toNat = (⌊start * b.sampleRate⌋).toNat + j by
        omega]
    unfold sampleAt
    rw [hcd]
  · rw [if_neg (by omega), if_neg hlt]

/-- Claim C5 (amended): for every in-range source buffer and every range with
`0 <= start < end` producing at least one frame
(`Math.floor((end - start) * sampleRate) >= 1`; on a zero-frame range the
host `createBuffer` call rejects the slice instead), `sliceAudio` copies
exactly that many frames per channel with zero-fill past the source end, and
a standard WAV reader recovers every sample to within 1/32767. -/
theorem slice_roundtrip_amended (b : AudioBuffer) (start stop : ℚ)
    (hs : 0 ≤ start) (hse : start < stop)
    (hfc : 1 ≤ ⌊(stop - start) * b.sampleRate⌋)
    (hsamp : ∀ ch ∈ b.channels, ∀ x ∈ ch, -1 ≤ x ∧ x ≤ 1)
    (hnc2 : b.channels.length * 2 < 65536) (hncpos : 0 < b.channels.length) :
    SliceSpecHolds b start stop := by
  have hnc : (sliceBuffer b start (⌊(stop - start) * b.sampleRate⌋).toNat).channels.length =
      b.channels.length := sliceBuffer_channels_length b start _
  have hcount : wavChannelCount (bufferToWav
      (sliceBuffer b start (⌊(stop - start) * b.sampleRate⌋).toNat)) = b.channels.length := by
    unfold wavChannelCount
    rw [readU16_wav_22 _ (by omega)]
    exact hnc
  refine ⟨?_, rfl, ?_, hcount, ?_, ?_⟩
  · unfold sliceAudio
    rw [if_neg (by omega)]
  · intro c hc j hj
    exact sampleAt_sliceBuffer b start _ c j hc hj hs
  · unfold wavFrameTotal
    rw [hcount, wav_length, hnc,
      show (sliceBuffer b start (⌊(stop - start) * b.sampleRate⌋).toNat).frames =
        (⌊(stop - start) * b.sampleRate⌋).toNat from rfl]
    rw [show 44 + (⌊(stop - start) * b.sampleRate⌋).toNat * b.channels.length * 2 - 44 =
        (⌊(stop - start) * b.sampleRate⌋).toNat * b.channels.length * 2 by omega]
    rw [show (⌊(stop - start) * b.sampleRate⌋).toNat * b.channels.length * 2 =
        (2 * b.channels.length) * (⌊(stop - start) * b.sampleRate⌋).toNat by ring]
    exact Nat.mul_div_cancel_left _ (by omega)
  · intro c hc j hj
    have hsl := wav_data_sample (sliceBuffer b start (⌊(stop - start) * b.sampleRate⌋).toNat)
      j c (by exact hj) (by rwa [hnc])
    rw [hnc] at hsl
    unfold wavSampleQ
    rw [hcount, hsl]
    have hb := sampleAt_bounds (sliceBuffer b start (⌊(stop - start) * b.sampleRate⌋).toNat)
      (sliceBuffer_samples_bounded b start _ hsamp) c j
    exact wavSampleInt_quant _ hb.1 hb.2

/-- Claim C5 counterexample: with `start = 0 < end = 1/100` at 10 Hz the range
spans less than one frame, so the slice fails (`createBuffer` rejects a
zero-length buffer) instead of producing `floor((end-start)*rate) = 0` frames
of WAV output as the claim asserts for every `start < end`. -/
theorem slice_tiny_range_cex :
    (0 : ℚ) < 1/100 ∧ sliceAudio witBuf 0 (1/100) = .error .invalidRange := by
  constructor
  · norm_num
  · unfold sliceAudio
    have hcond : ⌊((1 : ℚ)/100 - 0) * (witBuf.sampleRate : ℚ)⌋ ≤ 0 := by
      rw [show (witBuf.sampleRate : ℚ) = 10 by norm_num [witBuf]]
      norm_num
    rw [if_pos hcond]

/-- Witness for the amended slice round-trip claim at a concrete buffer. -/
theorem slice_roundtrip_witness :
    (0 : ℚ) ≤ 0 ∧ (0 : ℚ) < 1/5 ∧ 1 ≤ ⌊((1/5 : ℚ) - 0) * witBuf.sampleRate⌋ ∧
    (∀ ch ∈ witBuf.channels, ∀ x ∈ ch, -1 ≤ x ∧ x ≤ 1) ∧
    witBuf.channels.length * 2 < 65536 ∧ 0 < witBuf.channels.length ∧
    SliceSpecHolds witBuf 0 (1/5) :=
  ⟨le_refl 0, by norm_num, by rw [show (witBuf.sampleRate : ℚ) = 10 by norm_num [witBuf]]; norm_num,
    by decide, by decide, by decide,
    slice_roundtrip_amended witBuf 0 (1/5) (le_refl 0) (by norm_num)
      (by rw [show (witBuf.sampleRate : ℚ) = 10 by norm_num [witBuf]]; norm_num)
      (by decide) (by decide) (by decide)⟩

/-- Claim C7: a direct slice call with `end <= start` fails with
`InvalidRange` (the non-positive frame count is rejected) and never returns a
WAV byte buffer. -/
theorem slice_invalid_range (b : AudioBuffer) (start stop : ℚ) (h : stop ≤ start) :
    sliceAudio b start stop = .error .invalidRange := by
  unfold sliceAudio
  have hq : (stop - start) * (b.sampleRate : ℚ) ≤ 0 :=
    mul_nonpos_of_nonpos_of_nonneg (by linarith) (by positivity)
  have hf : ⌊(stop - start) * (b.sampleRate : ℚ)⌋ ≤ 0 := by
    have hm := Int.floor_le_floor hq
    simpa using hm
  rw [if_pos hf]

/-- Witness for the invalid-range claim at equal bounds. -/
theorem slice_invalid_range_witness :
    (1 : ℚ) ≤ 1 ∧ sliceAudio witBuf 1 1 = .error .invalidRange :=
  ⟨le_refl 1, slice_invalid_range witBuf 1 1 (le_refl 1)⟩

/-- Claim C10: the auto-detect update replaces `splitPoints` with the freshly
computed list and resets `segments` to the empty list in the same update,
leaving every other asset field unchanged. -/
theorem auto_detect_frame_effect (a : AudioAsset) (b : AudioBuffer) (maxDur : ℚ)
    (hb : a.buffer = some b) : FrameEffectHolds a b maxDur := by
  unfold FrameEffectHolds autoDetectUpdate
  rw [hb]
  exact ⟨rfl, rfl, rfl, rfl, rfl, rfl, rfl, rfl⟩

/-- Witness for the frame-effect claim at a concrete asset. -/
theorem auto_detect_frame_effect_witness :
    witAsset.buffer = some witInner ∧ FrameEffectHolds witAsset witInner 1 :=
  ⟨rfl, auto_detect_frame_effect witAsset witInner 1 rfl⟩

/-! ### Consecutive boundary pairs -/

theorem consecPairs_mem (l : List ℚ) (p : ℚ × ℚ) (hp : p ∈ consecPairs l) :
    p.1 ∈ l ∧ p.2 ∈ l := by
  induction l with
  | nil => simp [consecPairs] at hp
  | cons a t ih =>
    cases t with
    | nil => simp [consecPairs] at hp
    | cons b t2 =>
      simp only [consecPairs, List.mem_cons] at hp
      rcases hp with hp | hp
      · rw [hp]
        exact ⟨by simp, by simp⟩
      · obtain ⟨h1, h2⟩ := ih hp
        exact ⟨List.mem_cons_of_mem _ h1, List.mem_cons_of_mem _ h2⟩

theorem consecPairs_pairwise (l : List ℚ) (hl : l.Sorted (· ≤ ·)) :
    (consecPairs l).Pairwise (fun p q => p.2 ≤ q.1) := by
  induction l with
  | nil => simp [consecPairs]
  | cons a t ih =>
    cases t with
    | nil => simp [consecPairs]
    | cons b t2 =>
      rw [show consecPairs (a :: b :: t2) = (a, b) :: consecPairs (b :: t2) from rfl]
      refine List.Pairwise.cons ?_ (ih hl.of_cons)
      intro q hq
      have hq1 := (consecPairs_mem _ _ hq).1
      rcases List.mem_cons.mp hq1 with h | h
      · rw [← h]
      · exact (List.sorted_cons.mp hl.of_cons).1 _ h

theorem consecPairs_cover (a : ℚ) (l : List ℚ) (d x : ℚ) (h1 : a ≤ x) (h2 : x < d) :
    ∃ p ∈ consecPairs (a :: (l ++ [d])), p.1 ≤ x ∧ x < p.2 := by
  induction l generalizing a with
  | nil => exact ⟨(a, d), by simp [consecPairs], h1, h2⟩
  | cons b t ih =>
    by_cases hb : x < b
    · exact ⟨(a, b), by simp [consecPairs], h1, hb⟩
    · obtain ⟨p, hp, hpx⟩ := ih b (le_of_not_lt hb)
      refine ⟨p, ?_, hpx⟩
      simp only [List.cons_append, consecPairs, List.mem_cons]
      right
      simpa using hp

theorem boundaryPoints_sorted (splits : List ℚ) (dur : ℚ)
    (hs : splits.Sorted (· ≤ ·)) (hrange : ∀ t ∈ splits, 0 ≤ t ∧ t ≤ dur)
    (hd : 0 ≤ dur) : (boundaryPoints splits dur).Sorted (· ≤ ·) := by
  unfold boundaryPoints
  rw [List.sorted_cons]
  constructor
  · intro b hb
    rcases List.mem_append.mp hb with h | h
    · exact (hrange b h).1
    · simp only [List.mem_singleton] at h
      rw [h]
      exact hd
  · rw [show ((splits ++ [dur]).Sorted (· ≤ ·)) =
        (splits ++ [dur]).Pairwise (· ≤ ·) from rfl, List.pairwise_append]
    refine ⟨hs, by simp, fun a ha b hb => ?_⟩
    simp only [List.mem_singleton] at hb
    rw [hb]
    exact (hrange a ha).2

/-- Claim C4 (amended): for every duration at least 0 and every ascending
split list inside `[0, duration]`, batch slicing emits exactly the
consecutive boundary pairs of length at least 0.1s, in time order; the
emitted pairs are positive-length, pairwise non-overlapping and ascending,
and every point of `[0, duration)` lies in a boundary pair that is either
emitted or shorter than 0.1s; an empty split list yields the single segment
`(0, duration)` provided `duration >= 0.1` (for a shorter asset even that
pair is dropped). -/
theorem slice_all_amended (splits : List ℚ) (dur : ℚ)
    (hs : splits.Sorted (· ≤ ·)) (hrange : ∀ t ∈ splits, 0 ≤ t ∧ t ≤ dur)
    (hd : 0 ≤ dur) : SliceAllHolds splits dur := by
  have hsorted := boundaryPoints_sorted splits dur hs hrange hd
  refine ⟨?_, ?_, ?_, ?_, ?_⟩
  · intro p
    rw [segmentPairs, List.mem_filter]
    constructor
    · rintro ⟨h1, h2⟩
      simp only [Bool.not_eq_eq_eq_not, Bool.not_true, decide_eq_false_iff_not,
        not_lt] at h2
      exact ⟨h1, h2⟩
    · rintro ⟨h1, h2⟩
      refine ⟨h1, ?_⟩
      simp only [Bool.not_eq_eq_eq_not, Bool.not_true, decide_eq_false_iff_not, not_lt]
      exact h2
  · intro p hp
    rw [segmentPairs, List.mem_filter] at hp
    have h2 := hp.2
    simp only [Bool.not_eq_eq_eq_not, Bool.not_true, decide_eq_false_iff_not,
      not_lt] at h2
    linarith
  · exact (consecPairs_pairwise _ hsorted).filter _
  · intro x hx hxd
    obtain ⟨p, hp, hp1, hp2⟩ := consecPairs_cover 0 splits dur x hx hxd
    rw [show (0 : ℚ) :: (splits ++ [dur]) = boundaryPoints splits dur from rfl] at hp
    refine ⟨p, hp, hp1, hp2, ?_⟩
    by_cases hlen : p.2 - p.1 < 1/10
    · right
      exact hlen
    · left
      rw [segmentPairs, List.mem_filter]
      refine ⟨hp, ?_⟩
      simp only [Bool.not_eq_eq_eq_not, Bool.not_true, decide_eq_false_iff_not, not_lt]
      linarith [not_lt.mp hlen]
  · intro hnil hdur
    subst hnil
    unfold segmentPairs boundaryPoints
    simp only [List.nil_append, consecPairs]
    rw [List.filter_cons, if_pos (by simp only [Bool.not_eq_eq_eq_not, Bool.not_true,
      decide_eq_false_iff_not, not_lt]; linarith)]
    rfl

/-- Claim C4 counterexample: with no splits and a duration of 0.05s the single
boundary pair `(0, 0.05)` is itself dropped by the sliver filter, so batch
slicing emits no segment at all, not one segment spanning `[0, duration]`. -/
theorem slice_all_empty_cex : segmentPairs [] (1/20) ≠ [(0, 1/20)] := by
  have h : segmentPairs [] (1/20) = [] := by
    unfold segmentPairs boundaryPoints
    simp only [List.nil_append, consecPairs]
    rw [List.filter_cons, if_neg (by simp only [Bool.not_eq_eq_eq_not, Bool.not_true,
      decide_eq_false_iff_not, not_lt, not_le]; norm_num)]
    rfl
  rw [h]
  simp

/-- Witness for the amended batch-slicing claim at a concrete boundary list. -/
theorem slice_all_witness :
    ([] : List ℚ).Sorted (· ≤ ·) ∧ (∀ t ∈ ([] : List ℚ), 0 ≤ t ∧ t ≤ (1 : ℚ)) ∧
    (0 : ℚ) ≤ 1 ∧ SliceAllHolds [] 1 :=
  ⟨List.sorted_nil, by simp, by norm_num,
    slice_all_amended [] 1 List.sorted_nil (by simp) (by norm_num)⟩

/-! ### Waveform peak decimation -/

theorem peakCol_eq_fold (data : List ℚ) (base : ℕ) (n : ℕ) :
    peakCol data base n = ((data.drop base).take n).foldl
      (fun mm d => (if d < mm.1 then d else mm.1, if mm.2 < d then d else mm.2))
      (1, -1) := by
  induction n with
  | zero => rfl
  | succ n ih =>
    unfold peakCol at ih ⊢
    rw [List.range_succ, List.foldl_append, ih, List.take_succ, List.foldl_append]
    have hd : (data.drop base)[n]? = data[base + n]? := List.getElem?_drop data base n
    rw [hd]
    cases h : data[base + n]? with
    | none => simp only [h, Option.toList_none, List.foldl_nil, List.foldl_cons]
    | some d => simp only [h, Option.toList_some, List.foldl_nil, List.foldl_cons]

theorem foldl_minUpd_le_init (l : List ℚ) : ∀ a : ℚ,
    l.foldl (fun m d => if d < m then d else m) a ≤ a := by
  induction l with
  | nil => intro a; exact le_refl a
  | cons y t ih =>
    intro a
    simp only [List.foldl_cons]
    refine le_trans (ih _) ?_
    split
    · exact le_of_lt (by assumption)
    · exact le_refl a

theorem foldl_minUpd_le_mem (l : List ℚ) : ∀ a x, x ∈ l →
    l.foldl (fun m d => if d < m then d else m) a ≤ x := by
  induction l with
  | nil => intro a x hx; simp at hx
  | cons y t ih =>
    intro a x hx
    simp only [List.foldl_cons]
    rcases List.mem_cons.mp hx with h | h
    · subst h
      refine le_trans (foldl_minUpd_le_init t _) ?_
      split
      · exact le_refl x
      · exact le_of_not_lt (by assumption)
    · exact ih _ x h

theorem foldl_minUpd_mem_cons (l : List ℚ) : ∀ a : ℚ,
    l.foldl (fun m d => if d < m then d else m) a ∈ a :: l := by
  induction l with
  | nil => intro a; simp
  | cons y t ih =>
    intro a
    simp only [List.foldl_cons]
    have hm := ih (if y < a then y else a)
    rcases List.mem_cons.mp hm with h | h
    · rw [h]
      split
      · exact List.mem_cons_of_mem _ (List.mem_cons_self _ _)
      · exact List.mem_cons_self _ _
    · exact List.mem_cons_of_mem _ (List.mem_cons_of_mem _ h)

theorem foldl_maxUpd_ge_init (l : List ℚ) : ∀ a : ℚ,
    a ≤ l.foldl (fun m d => if m < d then d else m) a := by
  induction l with
  | nil => intro a; exact le_refl a
  | cons y t ih =>
    intro a
    simp only [List.foldl_cons]
    refine le_trans ?_ (ih _)
    split
    · exact le_of_lt (by assumption)
    · exact le_refl a

theorem foldl_maxUpd_ge_mem (l : List ℚ) : ∀ a x, x ∈ l →
    x ≤ l.foldl (fun m d => if m < d then d else m) a := by
  induction l with
  | nil => intro a x hx; simp at hx
  | cons y t ih =>
    intro a x hx
    simp only [List.foldl_cons]
    rcases List.mem_cons.mp hx with h | h
    · subst h
      refine le_trans ?_ (foldl_maxUpd_ge_init t _)
      split
      · exact le_refl x
      · exact le_of_not_lt (by assumption)
    · exact ih _ x h

theorem foldl_maxUpd_mem_cons (l : List ℚ) : ∀ a : ℚ,
    l.foldl (fun m d => if m < d then d else m) a ∈ a :: l := by
  induction l with
  | nil => intro a; simp
  | cons y t ih =>
    intro a
    simp only [List.foldl_cons]
    have hm := ih (if a < y then y else a)
    rcases List.mem_cons.mp hm with h | h
    · rw [h]
      split
      · exact List.mem_cons_of_mem _ (List.mem_cons_self _ _)
      · exact List.mem_cons_self _ _
    · exact List.mem_cons_of_mem _ (List.mem_cons_of_mem _ h)

theorem foldl_pair_fst (l : List ℚ) : ∀ st : ℚ × ℚ,
    (l.foldl (fun mm d => (if d < mm.1 then d else mm.1, if mm.2 < d then d else mm.2)) st).1 =
      l.foldl (fun m d => if d < m then d else m) st.1 := by
  induction l with
  | nil => intro st; rfl
  | cons y t ih => intro st; exact ih _

theorem foldl_pair_snd (l : List ℚ) : ∀ st : ℚ × ℚ,
    (l.foldl (fun mm d => (if d < mm.1 then d else mm.1, if mm.2 < d then d else mm.2)) st).2 =
      l.foldl (fun m d => if m < d then d else m) st.2 := by
  induction l with
  | nil => intro st; rfl
  | cons y t ih => intro st; exact ih _

/-- Claim C9 (amended): for every in-range sample buffer and output width,
the summarizer emits one pair per column; a column whose (buffer-clipped)
window holds at least one sample reports that window's true minimum and
maximum, while a column whose window holds no samples keeps the loop's
initial sentinels and emits `(1, -1)` — not `(0, 0)` as the claim states. -/
theorem waveform_peaks_amended (data : List ℚ) (width : ℕ)
    (hsamp : ∀ x ∈ data, -1 ≤ x ∧ x ≤ 1) : PeakSpecHolds data width := by
  refine ⟨by simp [waveformPeaks], ?_⟩
  intro i hi
  have hcol : (waveformPeaks data width).getD i (0, 0) =
      peakCol data (i * ((data.length + width - 1) / width))
        ((data.length + width - 1) / width) := by
    unfold waveformPeaks
    rw [getD_map_of_lt _ (List.range width) i (0, 0) (by simpa using hi),
      List.getElem_range]
  rw [hcol, peakCol_eq_fold]
  constructor
  · intro hw
    rw [hw]
    rfl
  · intro hw
    have hsub : ∀ x ∈ (data.drop (i * ((data.length + width - 1) / width))).take
        ((data.length + width - 1) / width), -1 ≤ x ∧ x ≤ 1 :=
      fun x hx => hsamp x (List.drop_subset _ _ (List.take_subset _ _ hx))
    obtain ⟨h0, t0, hwin⟩ := List.exists_cons_of_ne_nil hw
    rw [foldl_pair_fst, foldl_pair_snd]
    refine ⟨?_, ?_, fun x hx => ⟨foldl_minUpd_le_mem _ _ x hx, foldl_maxUpd_ge_mem _ _ x hx⟩⟩
    · rcases List.mem_cons.mp (foldl_minUpd_mem_cons
        ((data.drop (i * ((data.length + width - 1) / width))).take
          ((data.length + width - 1) / width)) 1) with h | h
      · have hle := foldl_minUpd_le_mem
          ((data.drop (i * ((data.length + width - 1) / width))).take
            ((data.length + width - 1) / width)) 1 h0 (by rw [hwin]; simp)
        have hh0 : h0 = (1 : ℚ) :=
          le_antisymm ((hsub h0 (by rw [hwin]; simp)).2) (by rw [← h]; exact hle)
        rw [h, ← hh0, hwin]
        simp
      · exact h
    · rcases List.mem_cons.mp (foldl_maxUpd_mem_cons
        ((data.drop (i * ((data.length + width - 1) / width))).take
          ((data.length + width - 1) / width)) (-1)) with h | h
      · have hge := foldl_maxUpd_ge_mem
          ((data.drop (i * ((data.length + width - 1) / width))).take
            ((data.length + width - 1) / width)) (-1) h0 (by rw [hwin]; simp)
        have hh0 : h0 = (-1 : ℚ) :=
          le_antisymm (by rw [← h]; exact hge) ((hsub h0 (by rw [hwin]; simp)).1)
        rw [h, ← hh0, hwin]
        simp
      · exact h

/-- Claim C9 counterexample: for a one-sample buffer rendered at width 2 the
second column's window holds no samples, and the summarizer emits the
sentinels `(1, -1)` there, not the `(0, 0)` the claim asserts. -/
theorem waveform_empty_column_cex : waveformPeaks [0] 2 ≠ [(0, 0), (0, 0)] := by
  decide

/-- Witness for the amended waveform claim at a concrete buffer. -/
theorem waveform_peaks_witness :
    (∀ x ∈ ([0, 1] : List ℚ), -1 ≤ x ∧ x ≤ 1) ∧ PeakSpecHolds [0, 1] 1 :=
  ⟨by decide, waveform_peaks_amended [0, 1] 1 (by decide)⟩

/-! ### The brightness probe -/

theorem findGoodFrameF_succ (video : ℚ → List (ℕ × ℕ × ℕ × ℕ)) (n : ℕ) (t : ℚ) :
    findGoodFrameF video (n + 1) t =
      if avgBrightness (video t) < 10 ∧ 1/2 < t then findGoodFrameF video n (t - 1/10)
      else some t := rfl

theorem findGoodFrameF_run (video : ℚ → List (ℕ × ℕ × ℕ × ℕ)) :
    ∀ (n : ℕ) (t : ℚ), (⌈(t - 1/2) * 10⌉).toNat < n →
      ∃ k : ℕ, findGoodFrameF video n t = some (t - k * (1/10)) ∧
        frameOk video (t - k * (1/10)) ∧ ∀ j < k, ¬ frameOk video (t - j * (1/10)) := by
  intro n
  induction n with
  | zero => intro t ht; omega
  | succ n ih =>
    intro t ht
    rw [findGoodFrameF_succ]
    by_cases hc : avgBrightness (video t) < 10 ∧ 1/2 < t
    · rw [if_pos hc]
      have hpos : 0 < ⌈(t - 1/2) * 10⌉ :=
        Int.ceil_pos.mpr (mul_pos (by linarith [hc.2]) (by norm_num))
      have hmeas : (⌈(t - 1/10 - 1/2) * 10⌉).toNat < n := by
        rw [show (t - 1/10 - 1/2) * 10 = (t - 1/2) * 10 - 1 by ring, Int.ceil_sub_one]
        omega
      obtain ⟨k, h1, h2, h3⟩ := ih (t - 1/10) hmeas
      refine ⟨k + 1, ?_, ?_, ?_⟩
      · rw [h1]
        congr 1
        push_cast
        ring
      · rw [show t - (((k : ℕ) + 1 : ℕ) : ℚ) * (1/10) = t - 1/10 - k * (1/10) by
          push_cast; ring]
        exact h2
      · intro j hj
        cases j with
        | zero =>
          simp only [Nat.cast_zero, zero_mul, sub_zero]
          unfold frameOk
          push_neg
          exact ⟨hc.1, hc.2⟩
        | succ j =>
          rw [show t - (((j : ℕ) + 1 : ℕ) : ℚ) * (1/10) = t - 1/10 - j * (1/10) by
            push_cast; ring]
          exact h3 j (by omega)
    · rw [if_neg hc]
      refine ⟨0, by simp, ?_, by omega⟩
      simp only [Nat.cast_zero, zero_mul, sub_zero]
      unfold frameOk
      rcases not_and_or.mp hc with h | h
      · left
        exact not_lt.mp h
      · right
        exact not_lt.mp h

/-- Claim C6: for every video handle and duration, the brightness prober (a
backward search in 0.1s steps from `duration - 0.05`) terminates within a
fuel computable from the start time, and the frame it returns is accepted
exactly under `avgBrightness >= 10 OR t <= 0.5` — every earlier probed frame
failed that condition, the returned one satisfies it. -/
theorem frame_probe_spec (video : ℚ → List (ℕ × ℕ × ℕ × ℕ)) (dur : ℚ) :
    ProbeSpecHolds video dur := by
  unfold ProbeSpecHolds
  exact findGoodFrameF_run video (goodFuel (dur - 1/20)) (dur - 1/20)
    (by unfold goodFuel; omega)

/-! ### The probe-chunk scan of one auto-split iteration -/

theorem firstMin_mem (f : ℕ → ℚ) : ∀ (l : List ℕ) (b : ℕ), firstMin f l = some b → b ∈ l := by
  intro l
  induction l with
  | nil => intro b hb; simp [firstMin] at hb
  | cons a t ih =>
    intro b hb
    rw [show firstMin f (a :: t) = (match firstMin f t with
        | none => some a
        | some c => if f a ≤ f c then some a else some c) from rfl] at hb
    cases h : firstMin f t with
    | none =>
      rw [h] at hb
      dsimp only at hb
      simp only [Option.some.injEq] at hb
      rw [← hb]
      exact List.mem_cons_self a t
    | some c =>
      rw [h] at hb
      dsimp only at hb
      split at hb <;> simp only [Option.some.injEq] at hb
      · rw [← hb]
        exact List.mem_cons_self a t
      · exact List.mem_cons_of_mem _ (hb ▸ ih c h)

theorem detectScan_none (data : List ℚ) (rate : ℕ) (d : ℚ) (s : ℕ) :
    detectScan data rate (none, d) s = stepState data rate s := rfl

theorem detectScan_some (data : List ℚ) (rate : ℕ) (c s : ℕ) :
    detectScan data rate (stepState data rate c) s =
      if chunkEnergy data s (rate / 10) < chunkEnergy data c (rate / 10) then
        stepState data rate s
      else stepState data rate c := rfl

theorem detectFold_some (data : List ℚ) (rate : ℕ) :
    ∀ (l : List ℕ) (c : ℕ),
      l.foldl (detectScan data rate) (stepState data rate c) =
        match firstMin (fun s => chunkEnergy data s (rate / 10)) l with
        | none => stepState data rate c
        | some b =>
          if chunkEnergy data b (rate / 10) < chunkEnergy data c (rate / 10) then
            stepState data rate b
          else stepState data rate c := by
  intro l
  induction l with
  | nil => intro c; rfl
  | cons a t ih =>
    intro c
    rw [List.foldl_cons, detectScan_some,
      show firstMin (fun s => chunkEnergy data s (rate / 10)) (a :: t) =
        (match firstMin (fun s => chunkEnergy data s (rate / 10)) t with
          | none => some a
          | some c2 =>
            if chunkEnergy data a (rate / 10) ≤ chunkEnergy data c2 (rate / 10) then some a
            else some c2) from rfl]
    by_cases hac : chunkEnergy data a (rate / 10) < chunkEnergy data c (rate / 10)
    · rw [if_pos hac, ih a]
      cases h : firstMin (fun s => chunkEnergy data s (rate / 10)) t with
      | none =>
        dsimp only
        rw [if_pos hac]
      | some b =>
        dsimp only
        by_cases hab : chunkEnergy data a (rate / 10) ≤ chunkEnergy data b (rate / 10)
        · rw [if_pos hab]
          dsimp only
          rw [if_neg (by linarith), if_pos hac]
        · rw [if_neg hab]
          dsimp only
          rw [if_pos (by linarith), if_pos (by linarith)]
    · rw [if_neg hac, ih c]
      cases h : firstMin (fun s => chunkEnergy data s (rate / 10)) t with
      | none =>
        dsimp only
        rw [if_neg hac]
      | some b =>
        dsimp only
        by_cases hab : chunkEnergy data a (rate / 10) ≤ chunkEnergy data b (rate / 10)
        · rw [if_pos hab]
          dsimp only
          rw [if_neg hac, if_neg (by intro hbc; linarith)]
        · rw [if_neg hab]

theorem detectStep_eq_firstMin (data : List ℚ) (rate : ℕ) (cursor maxDur : ℚ) :
    detectStep data rate cursor maxDur =
      match firstMin (fun s => chunkEnergy data s (rate / 10))
          (completeChunks data rate cursor maxDur) with
      | none => cursor + maxDur
      | some s => (s : ℚ) / rate := by
  unfold detectStep
  cases hl : completeChunks data rate cursor maxDur with
  | nil => rfl
  | cons a t =>
    rw [List.foldl_cons,
      show detectScan data rate (none, cursor + maxDur) a = stepState data rate a from rfl,
      detectFold_some data rate t a,
      show firstMin (fun s => chunkEnergy data s (rate / 10)) (a :: t) =
        (match firstMin (fun s => chunkEnergy data s (rate / 10)) t with
          | none => some a
          | some c2 =>
            if chunkEnergy data a (rate / 10) ≤ chunkEnergy data c2 (rate / 10) then some a
            else some c2) from rfl]
    cases h : firstMin (fun s => chunkEnergy data s (rate / 10)) t with
    | none => rfl
    | some b =>
      dsimp only
      by_cases hab : chunkEnergy data a (rate / 10) ≤ chunkEnergy data b (rate / 10)
      · rw [if_pos hab, if_neg (by linarith)]
        rfl
      · rw [if_neg hab, if_pos (by linarith)]
        rfl

theorem chunkStarts_sorted (startS endS step : ℕ) :
    (chunkStarts startS endS step).Sorted (· ≤ ·) := by
  unfold chunkStarts
  exact (List.pairwise_map).mpr ((List.pairwise_lt_range _).imp
    fun h => Nat.add_le_add_left (Nat.mul_le_mul_right _ (le_of_lt h)) _)

theorem takeWhile_eq_filter_mono (p : ℕ → Bool) :
    ∀ l : List ℕ, l.Sorted (· ≤ ·) → (∀ x y, x ≤ y → p y = true → p x = true) →
      l.takeWhile p = l.filter p := by
  intro l
  induction l with
  | nil => intro _ _; rfl
  | cons a t ih =>
    intro hs hmono
    rw [List.takeWhile_cons, List.filter_cons]
    cases hpa : p a with
    | true =>
      rw [if_pos rfl, if_pos rfl, ih hs.of_cons hmono]
    | false =>
      rw [if_neg (by simp), if_neg (by simp)]
      rw [eq_comm, List.filter_eq_nil_iff]
      intro x hx hpx
      have hax : a ≤ x := (List.sorted_cons.mp hs).1 x hx
      rw [hmono a x hax hpx] at hpa
      cases hpa

theorem completeChunks_mem (data : List ℚ) (rate : ℕ) (cursor maxDur : ℚ) (s : ℕ) :
    s ∈ completeChunks data rate cursor maxDur ↔
      ((∃ k < chunkCount (⌊max (cursor + 1) (cursor + maxDur - min 5 (maxDur / 2)) * rate⌋).toNat
            (⌊(cursor + maxDur) * rate⌋).toNat (rate / 10),
          s = (⌊max (cursor + 1) (cursor + maxDur - min 5 (maxDur / 2)) * rate⌋).toNat +
            k * (rate / 10)) ∧
        s + rate / 10 ≤ data.length) := by
  unfold completeChunks
  rw [takeWhile_eq_filter_mono _ _ (chunkStarts_sorted _ _ _)
    (fun x y hxy hpy => by
      simp only [decide_eq_true_eq] at hpy ⊢
      omega)]
  rw [List.mem_filter]
  unfold chunkStarts
  simp only [List.mem_map, List.mem_range, decide_eq_true_eq]
  constructor
  · rintro ⟨⟨k, hk, hks⟩, hlen⟩
    exact ⟨⟨k, hk, hks.symm⟩, hlen⟩
  · rintro ⟨⟨k, hk, hks⟩, hlen⟩
    exact ⟨⟨k, hk, hks.symm⟩, hlen⟩

/-- Claim C2: each auto-split iteration scans the probe chunks of the search
window (the window of length `min(5s, maxSegmentSeconds/2)` ending at
`cursor + maxSegmentSeconds` and starting at
`max(cursor + 1s, cursor + maxSegmentSeconds - window)`, partitioned into
chunks of `floor(0.1 * sampleRate)` samples, keeping only chunks that fit
inside the buffer), and the appended candidate is the start time of the
minimum-energy chunk, ties broken by the earliest chunk, defaulting to
`cursor + maxSegmentSeconds` when no complete chunk exists. -/
theorem detect_step_scan_spec (data : List ℚ) (rate : ℕ) (cursor maxDur : ℚ) :
    detectStep data rate cursor maxDur =
      (match firstMin (fun s => chunkEnergy data s (rate / 10))
          (completeChunks data rate cursor maxDur) with
        | none => cursor + maxDur
        | some s => (s : ℚ) / rate) ∧
    ∀ s : ℕ, s ∈ completeChunks data rate cursor maxDur ↔
      ((∃ k < chunkCount
            (⌊max (cursor + 1) (cursor + maxDur - min 5 (maxDur / 2)) * rate⌋).toNat
            (⌊(cursor + maxDur) * rate⌋).toNat (rate / 10),
          s = (⌊max (cursor + 1) (cursor + maxDur - min 5 (maxDur / 2)) * rate⌋).toNat +
            k * (rate / 10)) ∧
        s + rate / 10 ≤ data.length) :=
  ⟨detectStep_eq_firstMin data rate cursor maxDur,
    fun s => completeChunks_mem data rate cursor maxDur s⟩

/-! ### Progress of the auto-split cursor -/

theorem detectStep_cases (data : List ℚ) (rate : ℕ) (cursor maxDur : ℚ) :
    detectStep data rate cursor maxDur = cursor + maxDur ∨
    ∃ s ∈ completeChunks data rate cursor maxDur,
      detectStep data rate cursor maxDur = (s : ℚ) / rate := by
  rw [detectStep_eq_firstMin]
  cases h : firstMin (fun s => chunkEnergy data s (rate / 10))
      (completeChunks data rate cursor maxDur) with
  | none => left; rfl
  | some b => right; exact ⟨b, firstMin_mem _ _ b h, rfl⟩

theorem completeChunks_bounds (data : List ℚ) (rate : ℕ) (cursor maxDur : ℚ)
    (hstep : 0 < rate / 10) (s : ℕ) (hs : s ∈ completeChunks data rate cursor maxDur) :
    (⌊max (cursor + 1) (cursor + maxDur - min 5 (maxDur / 2)) * rate⌋).toNat ≤ s ∧
      s < (⌊(cursor + maxDur) * rate⌋).toNat := by
  obtain ⟨⟨k, hk, rfl⟩, _⟩ := (completeChunks_mem data rate cursor maxDur _).mp hs
  refine ⟨Nat.le_add_right _ _, ?_⟩
  unfold chunkCount at hk
  have h1 : (k + 1) * (rate / 10) ≤
      (⌊(cursor + maxDur) * rate⌋).toNat -
        (⌊max (cursor + 1) (cursor + maxDur - min 5 (maxDur / 2)) * rate⌋).toNat +
        (rate / 10) - 1 :=
    (Nat.le_div_iff_mul_le hstep).mp hk
  rw [Nat.succ_mul] at h1
  set K := k * (rate / 10)
  omega

theorem floor_toNat_cast (x : ℚ) (hx : 0 ≤ x) : (((⌊x⌋).toNat : ℕ) : ℚ) = ((⌊x⌋ : ℤ) : ℚ) := by
  have h := Int.toNat_of_nonneg (Int.floor_nonneg.mpr hx)
  exact_mod_cast h

theorem detectStep_lower (data : List ℚ) (rate : ℕ) (cursor : ℚ) (m : ℕ)
    (hr : 10 ≤ rate) (hm : 1 ≤ m) (hc0 : 0 ≤ cursor) (hg : GridPos rate cursor) :
    cursor + 1 ≤ detectStep data rate cursor (m : ℚ) ∧
    detectStep data rate cursor (m : ℚ) ≤ cursor + (m : ℚ) ∧
    GridPos rate (detectStep data rate cursor (m : ℚ)) := by
  have hrQ : (0 : ℚ) < rate := by exact_mod_cast (by omega : 0 < rate)
  have hmQ : (1 : ℚ) ≤ (m : ℚ) := by exact_mod_cast hm
  have hstep : 0 < rate / 10 := by omega
  rcases detectStep_cases data rate cursor (m : ℚ) with hdef | ⟨s, hs, hval⟩
  · rw [hdef]
    refine ⟨by linarith, le_refl _, ?_⟩
    obtain ⟨n, hn⟩ := hg
    refine ⟨n + m * rate, ?_⟩
    rw [hn]
    push_cast
    field_simp
  · obtain ⟨hlo, hhi⟩ := completeChunks_bounds data rate cursor (m : ℚ) hstep s hs
    rw [hval]
    have hgrid : GridPos rate ((s : ℚ) / rate) := ⟨s, rfl⟩
    have hendnn : (0 : ℚ) ≤ (cursor + (m : ℚ)) * rate :=
      mul_nonneg (by linarith) (le_of_lt hrQ)
    have hup : (s : ℚ) / rate ≤ cursor + (m : ℚ) := by
      have h1 : (s : ℚ) < ((⌊(cursor + (m : ℚ)) * rate⌋).toNat : ℚ) := by exact_mod_cast hhi
      rw [floor_toNat_cast _ hendnn] at h1
      have h2 : ((⌊(cursor + (m : ℚ)) * rate⌋ : ℤ) : ℚ) ≤ (cursor + (m : ℚ)) * rate :=
        Int.floor_le _
      rw [div_le_iff hrQ]
      linarith
    refine ⟨?_, hup, hgrid⟩
    by_cases hm2 : m ≤ 2
    · have hm2Q : (m : ℚ) ≤ 2 := by exact_mod_cast hm2
      have hwin : min (5 : ℚ) ((m : ℚ) / 2) = (m : ℚ) / 2 := min_eq_right (by linarith)
      have hmax : max (cursor + 1) (cursor + (m : ℚ) - (m : ℚ) / 2) = cursor + 1 :=
        max_eq_left (by linarith)
      obtain ⟨n, hn⟩ := hg
      have hss : max (cursor + 1) (cursor + (m : ℚ) - min 5 ((m : ℚ) / 2)) * rate =
          ((n + rate : ℕ) : ℚ) := by
        rw [hwin, hmax, hn]
        push_cast
        field_simp
      have hfl : (⌊max (cursor + 1) (cursor + (m : ℚ) - min 5 ((m : ℚ) / 2)) * rate⌋).toNat =
          n + rate := by
        rw [hss, Int.floor_natCast]
        exact Int.toNat_natCast _
      have hsge : n + rate ≤ s := hfl ▸ hlo
      have hcalc : cursor + 1 = ((n + rate : ℕ) : ℚ) / rate := by
        rw [hn]
        push_cast
        field_simp
      rw [hcalc]
      rw [div_le_div_iff_of_pos_right hrQ]
      exact_mod_cast hsge
    · have hm3Q : (3 : ℚ) ≤ (m : ℚ) := by exact_mod_cast (by omega : 3 ≤ m)
      have hwinle : min (5 : ℚ) ((m : ℚ) / 2) ≤ (m : ℚ) / 2 := min_le_right _ _
      have hss_ge : cursor + 3/2 ≤ max (cursor + 1) (cursor + (m : ℚ) - min 5 ((m : ℚ) / 2)) :=
        le_trans (by linarith) (le_max_right _ _)
      have hssnn : (0 : ℚ) ≤ max (cursor + 1) (cursor + (m : ℚ) - min 5 ((m : ℚ) / 2)) * rate :=
        mul_nonneg (le_trans (by linarith) (le_max_left _ _)) (le_of_lt hrQ)
      have h1 : ((⌊max (cursor + 1) (cursor + (m : ℚ) - min 5 ((m : ℚ) / 2)) * rate⌋).toNat : ℚ) ≤
          (s : ℚ) := by exact_mod_cast hlo
      rw [floor_toNat_cast _ hssnn] at h1
      have h2 : max (cursor + 1) (cursor + (m : ℚ) - min 5 ((m : ℚ) / 2)) * rate - 1 <
          ((⌊max (cursor + 1) (cursor + (m : ℚ) - min 5 ((m : ℚ) / 2)) * rate⌋ : ℤ) : ℚ) :=
        Int.sub_one_lt_floor _
      have h4 : (cursor + 3/2) * rate ≤
          max (cursor + 1) (cursor + (m : ℚ) - min 5 ((m : ℚ) / 2)) * rate :=
        mul_le_mul_of_nonneg_right hss_ge (le_of_lt hrQ)
      have hr10 : (10 : ℚ) ≤ rate := by exact_mod_cast hr
      rw [le_div_iff hrQ]
      nlinarith

theorem autoLoop_succ (data : List ℚ) (rate : ℕ) (totalDur maxDur : ℚ) (n : ℕ) (c : ℚ) :
    autoLoop data rate totalDur maxDur (n + 1) c =
      if c + maxDur < totalDur then
        (autoLoop data rate totalDur maxDur n (detectStep data rate c maxDur)).map
          fun rest => detectStep data rate c maxDur :: rest
      else some [] := rfl

theorem autoLoop_spec (data : List ℚ) (rate : ℕ) (totalDur : ℚ) (m : ℕ)
    (hr : 10 ≤ rate) (hm : 1 ≤ m) :
    ∀ (k : ℕ) (cursor : ℚ), 0 ≤ cursor → GridPos rate cursor →
      totalDur - cursor ≤ (k : ℚ) * (9/10) →
      ∃ l, autoLoop data rate totalDur (m : ℚ) (k + 1) cursor = some l ∧
        List.Chain (fun a b => a + 1 ≤ b) cursor l ∧ ∀ t ∈ l, t < totalDur := by
  have hmQ : (1 : ℚ) ≤ (m : ℚ) := by exact_mod_cast hm
  intro k
  induction k with
  | zero =>
    intro cursor hc hg hb
    rw [autoLoop_succ, if_neg (by push_cast at hb ⊢; linarith)]
    exact ⟨[], rfl, List.Chain.nil, by simp⟩
  | succ k ih =>
    intro cursor hc hg hb
    rw [autoLoop_succ]
    by_cases hguard : cursor + (m : ℚ) < totalDur
    · rw [if_pos hguard]
      obtain ⟨hlow, hup, hgrid⟩ := detectStep_lower data rate cursor m hr hm hc hg
      obtain ⟨l, hl, hchain, hmem⟩ := ih (detectStep data rate cursor (m : ℚ))
        (by linarith) hgrid (by push_cast at hb ⊢; linarith)
      rw [hl]
      refine ⟨detectStep data rate cursor (m : ℚ) :: l, rfl, List.Chain.cons hlow hchain, ?_⟩
      intro t ht
      rcases List.mem_cons.mp ht with h | h
      · rw [h]
        linarith
      · exact hmem t h
    · rw [if_neg hguard]
      exact ⟨[], rfl, List.Chain.nil, by simp⟩

theorem autoLoop_default_fuel (data : List ℚ) (rate : ℕ) (totalDur : ℚ) (m : ℕ)
    (hr : 10 ≤ rate) (hm : 1 ≤ m) :
    ∃ l, autoLoop data rate totalDur (m : ℚ) (detectFuel totalDur) 0 = some l ∧
      List.Chain (fun a b => a + 1 ≤ b) 0 l ∧ ∀ t ∈ l, t < totalDur := by
  have hfuel : detectFuel totalDur = (2 * (⌈totalDur⌉).toNat + 1) + 1 := by
    unfold detectFuel
    omega
  rw [hfuel]
  refine autoLoop_spec data rate totalDur m hr hm _ 0 (le_refl 0) ⟨0, by simp⟩ ?_
  rcases le_or_lt totalDur 0 with h | h
  · have : (0 : ℚ) ≤ ((2 * (⌈totalDur⌉).toNat + 1 : ℕ) : ℚ) * (9/10) := by positivity
    linarith
  · have h1 : totalDur ≤ ((⌈totalDur⌉).toNat : ℚ) := by
      have h2 : totalDur ≤ ((⌈totalDur⌉ : ℤ) : ℚ) := Int.le_ceil _
      have h3 : ((⌈totalDur⌉ : ℤ) : ℚ) = ((⌈totalDur⌉.toNat : ℕ) : ℚ) := by
        exact_mod_cast (Int.toNat_of_nonneg (by positivity : (0 : ℤ) ≤ ⌈totalDur⌉)).symm
      linarith [h3 ▸ h2]
    push_cast
    linarith

/-- Claim C3 (amended): for every buffer at a sample rate of at least 10 Hz
and every whole-number segment budget of at least one second, the split
finder's loop exits within the default fuel, returns the empty sequence when
the budget is at least the duration, and produces splits that each lie at
least 1.0 second after the previous cursor (hence strictly increasing); for
a fractional budget the floor to the sample grid can make a split land
slightly earlier than one second after the cursor. -/
theorem auto_split_amended (data : List ℚ) (rate : ℕ) (totalDur : ℚ) (m : ℕ)
    (hr : 10 ≤ rate) (hm : 1 ≤ m) : AutoSplitHolds data rate totalDur m := by
  obtain ⟨l, hl, hchain, hmem⟩ := autoLoop_default_fuel data rate totalDur m hr hm
  refine ⟨by rw [hl]; rfl, ?_, ?_⟩
  · intro hle
    have hfuel : ∃ k, detectFuel totalDur = k + 1 := ⟨detectFuel totalDur - 1, by
      unfold detectFuel
      omega⟩
    obtain ⟨k, hk⟩ := hfuel
    unfold autoDetectSplits
    rw [hk, autoLoop_succ, if_neg (by push_neg; linarith)]
    rfl
  · unfold autoDetectSplits
    rw [hl]
    exact hchain

/-- Witness for the amended auto-split claim at a concrete run. -/
theorem auto_split_witness : 10 ≤ 10 ∧ 1 ≤ 1 ∧ AutoSplitHolds [] 10 3 1 :=
  ⟨by decide, by decide, auto_split_amended [] 10 3 1 (by decide) (by decide)⟩

/-- Claim C3 counterexample: on a consistent buffer of 30 silent samples at
10 Hz (3.0 seconds, duration 3 = 30/10) with the fractional budget of
1.05 seconds the run returns `[1.05, 2.0]` — the second split lies only
0.95 seconds after the previous cursor, violating the claimed one-second
floor (the flooring of `searchStart * sampleRate` to a sample index loses
up to one sample of the `+1s` guarantee). -/
theorem auto_split_gap_cex :
    cexDataC3.length = 30 ∧
    autoDetectSplits cexDataC3 10 3 (21/20) = [21/20, 2] ∧ (2 : ℚ) - 21/20 < 1 := by
  have hd0 : detectStep cexDataC3 10 0 (21/20) = 21/20 := by
    have hc0 : completeChunks cexDataC3 10 0 (21/20) = [] := by
      norm_num [completeChunks, chunkStarts, chunkCount, min_def, max_def, Int.toNat_ofNat,
        List.range_zero]
    unfold detectStep
    rw [hc0]
    norm_num
  have hd1 : detectStep cexDataC3 10 (21/20) (21/20) = 2 := by
    have hc1 : completeChunks cexDataC3 10 (21/20) (21/20) = [20] := by
      norm_num [completeChunks, chunkStarts, chunkCount, min_def, max_def, Int.toNat_ofNat,
        cexDataC3, List.range_succ, List.range_zero]
      decide
    unfold detectStep
    rw [hc1, List.foldl_cons, List.foldl_nil,
      show detectScan cexDataC3 10 (none, 21/20 + 21/20) 20 = stepState cexDataC3 10 20 from rfl]
    unfold stepState
    norm_num
  have hf : detectFuel 3 = 8 := by
    norm_num [detectFuel]
    decide
  refine ⟨by decide, ?_, ?_⟩
  · unfold autoDetectSplits
    rw [hf, show (8 : ℕ) = 7 + 1 from rfl, autoLoop_succ, if_pos (by norm_num), hd0,
      show (7 : ℕ) = 6 + 1 from rfl, autoLoop_succ, if_pos (by norm_num), hd1,
      show (6 : ℕ) = 5 + 1 from rfl, autoLoop_succ, if_neg (by norm_num)]
    rfl
  · norm_num

/-! ### Split-list operations -/

theorem jsSort_sorted (l : List ℚ) : (jsSort l).Sorted (· ≤ ·) := by
  have h := @List.sorted_mergeSort ℚ (fun a b => decide (a ≤ b))
    (fun a b c hab hbc => by
      simp only [decide_eq_true_eq] at hab hbc ⊢
      linarith)
    (fun a b => by
      simp only [Bool.or_eq_true, decide_eq_true_eq]
      exact le_total a b)
    l
  exact h.imp fun hab => of_decide_eq_true hab

theorem jsSort_perm (l : List ℚ) : (jsSort l).Perm l := List.mergeSort_perm l _

theorem sorted_lt_nodup (l : List ℚ) (hs : l.Sorted (· < ·)) : l.Nodup :=
  List.Pairwise.imp (fun h => ne_of_lt h) hs

theorem sorted_lt_of_le_nodup (l : List ℚ) (hs : l.Sorted (· ≤ ·)) (hn : l.Nodup) :
    l.Sorted (· < ·) :=
  List.Pairwise.imp (fun h => lt_of_le_of_ne h.1 h.2) (List.Pairwise.and hs hn)

/-- Claim C8 (amended): with boundary clamping allowed (`addSplitPoint` clamps
into the closed interval `[0, duration]`), manual add, manual remove and
auto-detect (for a 10 Hz-or-more buffer and a whole-second budget) preserve a
strictly ascending unique split list with every value in `[0, duration]`;
manual adjust preserves ascending order and the value range but can collapse
two split points onto the same value, losing uniqueness. -/
theorem split_ops_amended (a : AudioAsset) (time pt delta : ℚ) (m : ℕ) (b : AudioBuffer)
    (hinv : SplitInv a.duration a.splitPoints) (hdur : 0 ≤ a.duration)
    (hb : a.buffer = some b) (hr : 10 ≤ b.sampleRate) (hm : 1 ≤ m) :
    SplitOpsHold a time pt delta m := by
  obtain ⟨hsorted, hrange⟩ := hinv
  refine ⟨?_, ?_, ?_, ?_, ?_⟩
  · unfold addSplitPoint
    by_cases hmem : max 0 (min a.duration time) ∈ a.splitPoints
    · rw [if_pos hmem]
      exact ⟨hsorted, hrange⟩
    · rw [if_neg hmem]
      refine ⟨?_, ?_⟩
      · apply sorted_lt_of_le_nodup _ (jsSort_sorted _)
        refine List.Perm.nodup (jsSort_perm _).symm ?_
        refine List.Nodup.append (sorted_lt_nodup _ hsorted) (List.nodup_singleton _) ?_
        intro x hx hx1
        simp only [List.mem_singleton] at hx1
        rw [hx1] at hx
        exact hmem hx
      · intro t ht
        have hmem2 := (jsSort_perm _).mem_iff.mp ht
        rcases List.mem_append.mp hmem2 with h | h
        · exact hrange t h
        · simp only [List.mem_singleton] at h
          rw [h]
          exact ⟨le_max_left _ _, max_le hdur (min_le_left _ _)⟩
  · unfold removeSplitPoint
    exact ⟨hsorted.filter _, fun t ht => hrange t (List.mem_of_mem_filter ht)⟩
  · exact jsSort_sorted _
  · intro t ht
    unfold adjustSplitPoint at ht
    have ht2 := (jsSort_perm _).mem_iff.mp ht
    rcases List.mem_map.mp ht2 with ⟨p, hp, rfl⟩
    by_cases hppt : p = pt
    · rw [if_pos hppt]
      exact ⟨le_max_left _ _, max_le hdur (min_le_left _ _)⟩
    · rw [if_neg hppt]
      exact hrange p hp
  · obtain ⟨l, hl, hchain, hmem⟩ :=
      autoLoop_default_fuel (channelData b 0) b.sampleRate a.duration m hr hm
    have heq : autoDetectSplits (channelData b 0) b.sampleRate a.duration (m : ℚ) = l := by
      unfold autoDetectSplits
      rw [hl]
      rfl
    have hgoal : (autoDetectUpdate a (m : ℚ)).splitPoints = l := by
      unfold autoDetectUpdate
      rw [hb]
      exact heq
    rw [hgoal]
    have hpair : (0 :: l).Pairwise (fun x y => x + 1 ≤ y) := by
      haveI : IsTrans ℚ (fun x y => x + 1 ≤ y) := ⟨fun x y z h1 h2 => by linarith⟩
      exact List.chain_iff_pairwise.mp hchain
    refine ⟨?_, ?_⟩
    · exact List.Pairwise.imp (fun h => by linarith)
        ((List.pairwise_cons.mp hpair).2)
    · intro t ht
      have h0 := (List.pairwise_cons.mp hpair).1 t ht
      exact ⟨by linarith, le_of_lt (hmem t ht)⟩

/-- Claim C8 counterexample, both divergences from the claimed invariant: on
the asset with splits `[1, 2]` (duration 10), `adjustSplitPoint 1 (+1)` moves
the first split onto the second, producing the stored list `[2, 2]` — not a
strictly ascending sequence of unique values — and `addSplitPoint (-5)`
clamps the time to the endpoint `0` and stores it, so the stored list
contains a value violating the claimed strict range `0 < t < duration`. -/
theorem adjust_duplicate_cex :
    ¬ ((adjustSplitPoint cexAssetC8 1 1).splitPoints.Sorted (· < ·)) ∧
    (0 : ℚ) ∈ (addSplitPoint cexAssetC8 (-5)).splitPoints ∧
    ¬ (∀ t ∈ (addSplitPoint cexAssetC8 (-5)).splitPoints,
        0 < t ∧ t < cexAssetC8.duration) := by
  have hcl : max 0 (min cexAssetC8.duration (-5 : ℚ)) = 0 := by
    norm_num [cexAssetC8, min_def, max_def]
  have hadd : (addSplitPoint cexAssetC8 (-5)).splitPoints =
      jsSort (cexAssetC8.splitPoints ++ [0]) := by
    unfold addSplitPoint
    rw [hcl, if_neg (by norm_num [cexAssetC8])]
  have hmem0 : (0 : ℚ) ∈ (addSplitPoint cexAssetC8 (-5)).splitPoints := by
    rw [hadd]
    exact (jsSort_perm _).mem_iff.mpr (by norm_num [cexAssetC8])
  refine ⟨?_, hmem0, fun hall => lt_irrefl (0 : ℚ) (hall 0 hmem0).1⟩
  have hmap : (cexAssetC8.splitPoints.map fun p =>
      if p = 1 then max 0 (min cexAssetC8.duration (1 + 1)) else p) = [2, 2] := by
    show ([(1 : ℚ), 2].map fun p =>
      if p = 1 then max 0 (min (10 : ℚ) (1 + 1)) else p) = [2, 2]
    norm_num [min_def, max_def]
  have hsort : (adjustSplitPoint cexAssetC8 1 1).splitPoints = jsSort [2, 2] := by
    unfold adjustSplitPoint
    rw [hmap]
  have hj : jsSort [2, 2] = [2, 2] := by
    have hp := jsSort_perm [2, 2]
    rw [show [(2 : ℚ), 2] = List.replicate 2 2 from rfl] at hp ⊢
    exact List.perm_replicate.mp hp
  rw [hsort, hj]
  intro hsorted
  exact lt_irrefl (2 : ℚ) ((List.sorted_cons.mp hsorted).1 2 (by simp))

/-- Witness for the amended split-operations claim at a concrete asset. -/
theorem split_ops_witness :
    SplitInv witAsset.duration witAsset.splitPoints ∧ (0 : ℚ) ≤ witAsset.duration ∧
    witAsset.buffer = some witInner ∧ 10 ≤ witInner.sampleRate ∧ 1 ≤ 1 ∧
    SplitOpsHold witAsset 1 1 1 1 :=
  ⟨⟨List.sorted_nil, by simp [witAsset]⟩, by norm_num [witAsset], rfl, by decide, by decide,
    split_ops_amended witAsset 1 1 1 1 witInner ⟨List.sorted_nil, by simp [witAsset]⟩
      (by norm_num [witAsset]) rfl (by decide) (by decide)⟩
